import Mathlib

/-!
# Verification of the QR-code encoder (src/lib/qr.ts)

A shallow embedding of the encoder pipeline of `src/lib/qr.ts` into Lean:
GF(256) arithmetic, Reed-Solomon encoding, the static ISO 18004 tables,
version selection, byte-mode data encoding, block interleaving, matrix
construction, zig-zag data placement, mask selection by penalty scoring and
the BCH-encoded format/version overlays.

Conventions of the embedding:
* JS `number` values that the source keeps integral are modelled as `ℕ`
  (or `Int` where the source uses the sentinel `-1`).
* Bits (the JS arrays of 0/1 numbers) are modelled as `Bool` (`true` = 1).
* `boolean[][]` grids are `List (List Bool)`; reads out of range yield
  `false` and writes out of range are dropped, which matches every
  reachable access of the source (the source never indexes out of range).
* The input string is represented by its UTF-8 byte list (the source
  computes `new TextEncoder().encode(text)`; the string is empty iff the
  byte list is empty).
* Imperative loops become folds or structural recursion on `List.range`.
-/

namespace QRSpec

/-- `ErrorCorrectionLevel` from src/lib/qr.ts. -/
inductive ECLevel
| L
| M
| Q
| H
deriving DecidableEq, Repr

/-- `EC_IDX` from src/lib/qr.ts: the table index of each EC level. -/
def EC_IDX : ECLevel → ℕ
| .L => 0
| .M => 1
| .Q => 2
| .H => 3

/-- One entry of `EC_BLOCKS`:
`[ecPerBlock, g1Blocks, g1DataPerBlock, g2Blocks, g2DataPerBlock]`. -/
structure BlockInfo where
  ecPer : ℕ
  g1n : ℕ
  g1k : ℕ
  g2n : ℕ
  g2k : ℕ
deriving DecidableEq, Repr

/-- `EC_BLOCKS` from src/lib/qr.ts: `EC_BLOCKS[version-1][ecIdx]`. -/
def EC_BLOCKS : List (List BlockInfo) := [
  [⟨7,1,19,0,0⟩,⟨10,1,16,0,0⟩,⟨13,1,13,0,0⟩,⟨17,1,9,0,0⟩],
  [⟨10,1,34,0,0⟩,⟨16,1,28,0,0⟩,⟨22,1,22,0,0⟩,⟨28,1,16,0,0⟩],
  [⟨15,1,55,0,0⟩,⟨26,1,44,0,0⟩,⟨18,2,17,0,0⟩,⟨22,2,13,0,0⟩],
  [⟨20,1,80,0,0⟩,⟨18,2,32,0,0⟩,⟨26,2,24,0,0⟩,⟨16,4,9,0,0⟩],
  [⟨26,1,108,0,0⟩,⟨24,2,43,0,0⟩,⟨18,2,15,2,16⟩,⟨22,2,11,2,12⟩],
  [⟨18,2,68,0,0⟩,⟨16,4,27,0,0⟩,⟨24,4,19,0,0⟩,⟨28,4,15,0,0⟩],
  [⟨20,2,78,0,0⟩,⟨18,4,31,0,0⟩,⟨18,2,14,4,15⟩,⟨26,4,13,1,14⟩],
  [⟨24,2,97,0,0⟩,⟨22,2,38,2,39⟩,⟨22,4,18,2,19⟩,⟨26,4,14,2,15⟩],
  [⟨30,2,116,0,0⟩,⟨22,3,36,2,37⟩,⟨20,4,16,4,17⟩,⟨24,4,12,4,13⟩],
  [⟨18,2,68,2,69⟩,⟨26,4,43,1,44⟩,⟨24,6,19,2,20⟩,⟨28,6,15,2,16⟩],
  [⟨20,4,81,0,0⟩,⟨30,1,50,4,51⟩,⟨28,4,22,4,23⟩,⟨24,3,12,8,13⟩],
  [⟨24,2,92,2,93⟩,⟨22,6,36,2,37⟩,⟨26,4,20,6,21⟩,⟨28,7,14,4,15⟩],
  [⟨26,4,107,0,0⟩,⟨22,8,37,1,38⟩,⟨24,8,20,4,21⟩,⟨22,12,11,4,12⟩],
  [⟨30,3,115,1,116⟩,⟨24,4,40,5,41⟩,⟨20,11,16,5,17⟩,⟨24,11,12,5,13⟩],
  [⟨22,5,87,1,88⟩,⟨24,5,41,5,42⟩,⟨30,5,24,7,25⟩,⟨24,11,12,7,13⟩],
  [⟨24,5,98,1,99⟩,⟨28,7,45,3,46⟩,⟨24,15,19,2,20⟩,⟨30,3,15,13,16⟩],
  [⟨28,1,107,5,108⟩,⟨28,10,46,1,47⟩,⟨28,1,22,15,23⟩,⟨28,2,14,17,15⟩],
  [⟨30,5,120,1,121⟩,⟨26,9,43,4,44⟩,⟨28,17,22,1,23⟩,⟨28,2,14,19,15⟩],
  [⟨28,3,113,4,114⟩,⟨26,3,44,11,45⟩,⟨26,17,21,4,22⟩,⟨26,9,13,16,14⟩],
  [⟨28,3,107,5,108⟩,⟨26,3,41,13,42⟩,⟨28,15,24,5,25⟩,⟨28,15,15,10,16⟩],
  [⟨28,4,116,4,117⟩,⟨26,17,42,0,0⟩,⟨30,17,22,6,23⟩,⟨28,19,16,6,17⟩],
  [⟨28,2,111,7,112⟩,⟨28,17,46,0,0⟩,⟨24,7,24,16,25⟩,⟨30,34,13,0,0⟩],
  [⟨30,4,121,5,122⟩,⟨28,4,47,14,48⟩,⟨30,11,24,14,25⟩,⟨30,16,15,14,16⟩],
  [⟨30,6,117,4,118⟩,⟨28,6,45,14,46⟩,⟨30,11,24,16,25⟩,⟨30,30,16,2,17⟩],
  [⟨26,8,106,4,107⟩,⟨28,8,47,13,48⟩,⟨30,7,24,22,25⟩,⟨30,22,15,13,16⟩],
  [⟨28,10,114,2,115⟩,⟨28,19,46,4,47⟩,⟨28,28,22,6,23⟩,⟨30,33,16,4,17⟩],
  [⟨30,8,122,4,123⟩,⟨28,22,45,3,46⟩,⟨30,8,23,26,24⟩,⟨30,12,15,28,16⟩],
  [⟨30,3,117,10,118⟩,⟨28,3,45,23,46⟩,⟨30,4,24,31,25⟩,⟨30,11,15,31,16⟩],
  [⟨30,7,116,7,117⟩,⟨28,21,45,7,46⟩,⟨30,1,23,37,24⟩,⟨30,19,15,26,16⟩],
  [⟨30,5,115,10,116⟩,⟨28,19,47,10,48⟩,⟨30,15,24,25,25⟩,⟨30,23,15,25,16⟩],
  [⟨30,13,115,3,116⟩,⟨28,2,46,29,47⟩,⟨30,42,24,1,25⟩,⟨30,23,15,28,16⟩],
  [⟨30,17,115,0,0⟩,⟨28,10,46,23,47⟩,⟨30,10,24,35,25⟩,⟨30,19,15,35,16⟩],
  [⟨30,17,115,1,116⟩,⟨28,14,46,21,47⟩,⟨30,29,24,19,25⟩,⟨30,11,15,46,16⟩],
  [⟨30,13,115,6,116⟩,⟨28,14,46,23,47⟩,⟨30,44,24,7,25⟩,⟨30,59,16,1,17⟩],
  [⟨30,12,121,7,122⟩,⟨28,12,47,26,48⟩,⟨30,39,24,14,25⟩,⟨30,22,15,41,16⟩],
  [⟨30,6,121,14,122⟩,⟨28,6,47,34,48⟩,⟨30,46,24,10,25⟩,⟨30,2,15,64,16⟩],
  [⟨30,17,122,4,123⟩,⟨28,29,46,14,47⟩,⟨30,49,24,10,25⟩,⟨30,24,15,46,16⟩],
  [⟨30,4,122,18,123⟩,⟨28,13,46,32,47⟩,⟨30,48,24,14,25⟩,⟨30,42,15,32,16⟩],
  [⟨30,20,117,4,118⟩,⟨28,40,47,7,48⟩,⟨30,43,24,22,25⟩,⟨30,10,15,67,16⟩],
  [⟨30,19,118,6,119⟩,⟨28,18,47,31,48⟩,⟨30,34,24,34,25⟩,⟨30,20,15,61,16⟩]]

/-- The table row `EC_BLOCKS[version-1][EC_IDX ec]`. -/
def blockInfo (version : ℕ) (ec : ECLevel) : BlockInfo :=
  (EC_BLOCKS.getD (version - 1) []).getD (EC_IDX ec) ⟨0,0,0,0,0⟩

/-- `ALIGN_POS` from src/lib/qr.ts: alignment-pattern centres per version. -/
def ALIGN_POS : List (List ℕ) := [
  [],[6,18],[6,22],[6,26],[6,30],[6,34],
  [6,22,38],[6,24,42],[6,26,46],[6,28,50],
  [6,30,54],[6,32,58],[6,34,62],
  [6,26,46,66],[6,26,48,70],[6,26,50,74],
  [6,30,54,78],[6,30,56,82],[6,30,58,86],[6,34,62,90],
  [6,28,50,72,94],[6,26,50,74,98],[6,30,54,78,102],
  [6,28,54,80,106],[6,32,58,84,110],[6,30,58,86,114],
  [6,34,62,90,118],
  [6,26,50,74,98,122],[6,30,54,78,102,126],
  [6,26,52,78,104,130],[6,30,56,82,108,134],
  [6,34,60,86,112,138],[6,30,58,86,114,142],
  [6,34,62,90,118,146],
  [6,30,54,78,102,126,150],[6,24,50,76,102,128,154],
  [6,28,54,80,106,132,158],[6,32,58,84,110,136,162],
  [6,26,54,82,110,138,166],[6,30,58,86,114,142,170]]

/-- `REM_BITS` from src/lib/qr.ts: remainder bits appended per version. -/
def REM_BITS : List ℕ :=
  [0,7,7,7,7,7,0,0,0,0, 0,0,0,3,3,3,3,3,3,3,
   4,4,4,4,4,4,4,3,3,3, 3,3,3,3,0,0,0,0,0,0]

/-- `cap` of `getMinVersion`: `(g1n*g1k + g2n*g2k) * 8`, the data capacity in
bits of a version at an EC level. -/
def capBits (v : ℕ) (ec : ECLevel) : ℕ :=
  let b := blockInfo v ec
  (b.g1n * b.g1k + b.g2n * b.g2k) * 8

/-- The byte-mode character-count width: 8 bits for `v ≤ 9`, 16 for `v ≥ 10`. -/
def ccBits (v : ℕ) : ℕ := if v ≤ 9 then 8 else 16

/-- `need` of `getMinVersion`: `4 + ccBits v + byteLen * 8`. -/
def needBits (v byteLen : ℕ) : ℕ := 4 + ccBits v + byteLen * 8

/-- The `for v = 1..40` loop of `getMinVersion`: current version `v`,
remaining number of candidate versions `rem`. -/
def getMinVersionLoop (byteLen : ℕ) (ec : ECLevel) : ℕ → ℕ → Int
| _, 0 => -1
| v, rem + 1 =>
  if needBits v byteLen ≤ capBits v ec then (v : Int)
  else getMinVersionLoop byteLen ec (v + 1) rem

/-- `getMinVersion` from src/lib/qr.ts (returns `-1` when nothing fits). -/
def getMinVersion (byteLen : ℕ) (ec : ECLevel) : Int :=
  getMinVersionLoop byteLen ec 1 40

example : getMinVersion 1 ECLevel.M = 1 := by decide
example : getMinVersion 17 ECLevel.L = 1 := by decide
example : getMinVersion 18 ECLevel.L = 2 := by decide
example : getMinVersion 10000 ECLevel.H = -1 := by decide
example : getMinVersion 482 ECLevel.Q = 20 := by decide

/-!
## Grids

A `boolean[][]` grid of side `size` is embedded as a single natural number:
cell `(r, c)` is bit `r * size + c`. Reads outside the grid yield `false`
and writes outside the grid are dropped, exactly as no reachable access of
the source ever goes out of range. The output type `QRCode` keeps the
source's `boolean[][]` shape via `decodeGrid`.

The folds that build a matrix force their accumulator to a numeral at each
step (`foldlNat`, `foldlMat`); they are proved equal to `List.foldl`.
-/

/-- Read bit `(r, c)` of a packed grid of side `size`. -/
def bitGet (size g r c : ℕ) : Bool :=
  decide (r < size) && decide (c < size) && g.testBit (r * size + c)

/-- Write bit `(r, c)` of a packed grid of side `size`. -/
def bitSet (size g r c : ℕ) (b : Bool) : ℕ :=
  if r < size ∧ c < size then
    if b then g ||| 1 <<< (r * size + c) else g ^^^ (g &&& 1 <<< (r * size + c))
  else g

/-- `List.foldl` with the `ℕ` accumulator forced to a numeral at each
step, so that kernel reduction of long folds stays iterative. -/
def foldlNat (f : ℕ → α → ℕ) : ℕ → List α → ℕ
| g, [] => g
| g, x :: xs =>
  match f g x with
  | 0 => foldlNat f 0 xs
  | m + 1 => foldlNat f (m + 1) xs

theorem foldlNat_eq_foldl (f : ℕ → α → ℕ) (g : ℕ) (l : List α) :
    foldlNat f g l = l.foldl f g := by
  induction l generalizing g with
  | nil => rfl
  | cons x xs ih =>
    rw [List.foldl_cons, ← ih (f g x)]
    cases h : f g x with
    | zero => simp only [foldlNat, h]
    | succ m => simp only [foldlNat, h]

/-- The `Matrix` record of src/lib/qr.ts: packed module and reservation
grids. -/
structure Matrix where
  mod : ℕ
  res : ℕ
deriving DecidableEq, Repr

/-- `List.foldl` with a `Matrix` accumulator forced at each step. -/
def foldlMat (f : Matrix → α → Matrix) : Matrix → List α → Matrix
| m, [] => m
| m, x :: xs =>
  match f m x with
  | ⟨0, 0⟩ => foldlMat f ⟨0, 0⟩ xs
  | ⟨0, b + 1⟩ => foldlMat f ⟨0, b + 1⟩ xs
  | ⟨a + 1, 0⟩ => foldlMat f ⟨a + 1, 0⟩ xs
  | ⟨a + 1, b + 1⟩ => foldlMat f ⟨a + 1, b + 1⟩ xs

theorem foldlMat_eq_foldl (f : Matrix → α → Matrix) (m : Matrix) (l : List α) :
    foldlMat f m l = l.foldl f m := by
  induction l generalizing m with
  | nil => rfl
  | cons x xs ih =>
    rw [List.foldl_cons, ← ih (f m x)]
    rcases h : f m x with ⟨_ | a, _ | b⟩ <;> simp only [foldlMat, h]

/-- The dark/light predicate of the 7×7 finder pattern at offset
`(dr, dc)` from the pattern corner, from `placeFinder`. -/
def finderDark (dr dc : Int) : Bool :=
  decide ((0 ≤ dr ∧ dr ≤ 6 ∧ (dc = 0 ∨ dc = 6)) ∨
          (0 ≤ dc ∧ dc ≤ 6 ∧ (dr = 0 ∨ dr = 6)) ∨
          (2 ≤ dr ∧ dr ≤ 4 ∧ 2 ≤ dc ∧ dc ≤ 4))

/-- `placeFinder` from src/lib/qr.ts: 7×7 finder pattern plus separator,
iterating `dr, dc ∈ [-1, 7]` and skipping cells outside the grid. -/
def placeFinder (size : ℕ) (m : Matrix) (r0 c0 : ℕ) : Matrix :=
  foldlMat (fun m1 (i : ℕ) =>
    foldlMat (fun m2 (j : ℕ) =>
      let dr : Int := (i : Int) - 1
      let dc : Int := (j : Int) - 1
      let r : Int := (r0 : Int) + dr
      let c : Int := (c0 : Int) + dc
      if r < 0 ∨ (size : Int) ≤ r ∨ c < 0 ∨ (size : Int) ≤ c then m2
      else
        ⟨bitSet size m2.mod r.toNat c.toNat (finderDark dr dc),
         bitSet size m2.res r.toNat c.toNat true⟩) m1 (List.range 9)) m (List.range 9)

/-- `placeAlign` from src/lib/qr.ts: 5×5 alignment pattern centred at
`(row, col)`, iterating `dr, dc ∈ [-2, 2]`. -/
def placeAlign (size : ℕ) (m : Matrix) (row col : ℕ) : Matrix :=
  foldlMat (fun m1 (i : ℕ) =>
    foldlMat (fun m2 (j : ℕ) =>
      let dr : Int := (i : Int) - 2
      let dc : Int := (j : Int) - 2
      let r : ℕ := ((row : Int) + dr).toNat
      let c : ℕ := ((col : Int) + dc).toNat
      let dark := decide (dr.natAbs = 2 ∨ dc.natAbs = 2 ∨ (dr = 0 ∧ dc = 0))
      ⟨bitSet size m2.mod r c dark,
       bitSet size m2.res r c true⟩) m1 (List.range 5)) m (List.range 5)

/-- The body of the timing-pattern loop of `buildMatrix`: write the
alternating module at `(6, i)` and `(i, 6)` unless already reserved. -/
def timingStep (size : ℕ) (m : Matrix) (i : ℕ) : Matrix :=
  let dark := decide (i % 2 = 0)
  let ma := if bitGet size m.res 6 i then m
    else ⟨bitSet size m.mod 6 i dark, bitSet size m.res 6 i true⟩
  if bitGet size ma.res i 6 then ma
  else ⟨bitSet size ma.mod i 6 dark, bitSet size ma.res i 6 true⟩

/-- `reserveFormat` from src/lib/qr.ts. -/
def reserveFormat (size res : ℕ) : ℕ :=
  let res1 := foldlNat (fun g i => bitSet size (bitSet size g 8 i true) i 8 true)
    res (List.range 9)
  let res2 := foldlNat (fun g i => bitSet size g 8 (size - 1 - i) true)
    res1 (List.range 8)
  foldlNat (fun g i => bitSet size g (size - 1 - i) 8 true) res2 (List.range 7)

/-- `reserveVersion` from src/lib/qr.ts. -/
def reserveVersion (size res : ℕ) : ℕ :=
  foldlNat (fun g i =>
    let a := i / 3
    let b := size - 11 + i % 3
    bitSet size (bitSet size g b a true) a b true) res (List.range 18)

/-- `buildMatrix` from src/lib/qr.ts: empty matrix with all function
patterns placed; returns the matrix and the side length. -/
def buildMatrix (version : ℕ) : Matrix × ℕ :=
  let size := version * 4 + 17
  let m0 : Matrix := ⟨0, 0⟩
  let m1 := placeFinder size m0 0 0
  let m2 := placeFinder size m1 0 (size - 7)
  let m3 := placeFinder size m2 (size - 7) 0
  let m4 :=
    if 2 ≤ version then
      let pos := ALIGN_POS.getD (version - 1) []
      foldlMat (fun mr r =>
        foldlMat (fun mc c =>
          if (r ≤ 8 ∧ c ≤ 8) ∨ (r ≤ 8 ∧ size - 8 ≤ c) ∨ (size - 8 ≤ r ∧ c ≤ 8)
          then mc
          else placeAlign size mc r c) mr pos) m3 pos
    else m3
  let m5 := foldlMat (timingStep size) m4 (List.range' 8 (size - 16))
  let m6 : Matrix := ⟨bitSet size m5.mod (size - 8) 8 true,
                      bitSet size m5.res (size - 8) 8 true⟩
  let m7 : Matrix := ⟨m6.mod, reserveFormat size m6.res⟩
  let m8 : Matrix := if 7 ≤ version then ⟨m7.mod, reserveVersion size m7.res⟩ else m7
  (m8, size)

/-- Number of non-reserved cells of a packed reservation grid. -/
def countNonReserved (size g : ℕ) : ℕ :=
  ((List.range size).map fun r =>
    ((List.range size).filter fun c => ! bitGet size g r c).length).sum

/-- Decidable per-version check for the timing-pattern claims: row 6 and
column 6 are fully reserved, and on `[8, size-9]` their modules alternate
(dark iff the index is even). -/
def timingCheck (version : ℕ) : Bool :=
  let p := buildMatrix version
  let m := p.1
  let size := p.2
  ((List.range size).all fun i => bitGet size m.res 6 i && bitGet size m.res i 6) &&
  ((List.range' 8 (size - 16)).all fun i =>
    (bitGet size m.mod 6 i == decide (i % 2 = 0)) &&
    (bitGet size m.mod i 6 == decide (i % 2 = 0)))



/-!
## GF(256) arithmetic and Reed-Solomon encoding
-/

/-- One step of the exp/log table loop: `x <<= 1; if (x & 0x100) x ^= 0x11d`. -/
def gfStep (x : ℕ) : ℕ :=
  let x2 := x <<< 1
  if x2 &&& 0x100 ≠ 0 then x2 ^^^ 0x11d else x2

/-- Byte entry `i` of a table packed 8 bits per entry (the `Uint8Array`s
of the source are embedded as packed naturals). -/
def byteAt (t i : ℕ) : ℕ := (t >>> (8 * i)) &&& 255

/-- The exp/log table construction loop of src/lib/qr.ts: 255 iterations of
`GF_EXP[i] = x; GF_LOG[x] = i; x = gfStep x`, starting from `x = 1`.
Returns (exp entries 0..254, log table of 256 entries), packed. -/
def GF_TABLES : (ℕ × ℕ) × ℕ :=
  (List.range 255).foldl (fun st i =>
    let exp := st.1.1
    let log := st.1.2
    let x := st.2
    ((exp ||| (x <<< (8 * i)),
      (log ^^^ (log &&& (255 <<< (8 * x)))) ||| (i <<< (8 * x))), gfStep x))
    ((0, 0), 1)

/-- `GF_EXP` doubled for modulo-free indexing (the source fills indices
255..511 with `GF_EXP[i-255]`; only indices up to 508 are ever read). -/
def GF_EXP : ℕ :=
  let core := GF_TABLES.1.1
  core ||| (core <<< (8 * 255)) ||| ((core &&& 0xffff) <<< (8 * 510))

/-- `GF_LOG` (entry 0 is never written and stays 0, as in a `Uint8Array`). -/
def GF_LOG : ℕ := GF_TABLES.1.2

/-- `gfMul` from src/lib/qr.ts. -/
def gfMul (a b : ℕ) : ℕ :=
  if a = 0 ∨ b = 0 then 0
  else byteAt GF_EXP (byteAt GF_LOG a + byteAt GF_LOG b)

/-- `buildGenPoly` from src/lib/qr.ts: RS generator polynomial of the given
degree, highest coefficient first. -/
def buildGenPoly (degree : ℕ) : List ℕ :=
  (List.range degree).foldl (fun g i =>
    let gi := byteAt GF_EXP i
    let n := g.length
    (List.range (n + 1)).map (fun j =>
      if j = 0 then g.getD 0 0
      else if j < n then (g.getD j 0) ^^^ gfMul gi (g.getD (j - 1) 0)
      else gfMul gi (g.getD (n - 1) 0))) [1]

/-- `rsEncode` from src/lib/qr.ts: `ecCount` error-correction codewords. -/
def rsEncode (data : List ℕ) (ecCount : ℕ) : List ℕ :=
  let gen := buildGenPoly ecCount
  data.foldl (fun r byte =>
    let f := byte ^^^ (r.getD 0 0)
    (List.range ecCount).map (fun i =>
      if i < ecCount - 1 then (r.getD (i + 1) 0) ^^^ gfMul f (gen.getD (i + 1) 0)
      else gfMul f (gen.getD ecCount 0)))
    (List.replicate ecCount 0)

/-!
## Data encoding and interleaving
-/

/-- The `push(val, len)` helper of `encodeData`: the low `len` bits of
`val`, most significant first. -/
def pushBits (val len : ℕ) : List Bool :=
  (List.range len).reverse.map (fun i => val.testBit i)

/-- The `bits → codewords` loop of `encodeData`: consume 8 bits at a time,
MSB first (`byte = (byte << 1) | bit`). -/
def bitsToBytes : List Bool → List ℕ
| b0 :: b1 :: b2 :: b3 :: b4 :: b5 :: b6 :: b7 :: rest =>
  ([b0, b1, b2, b3, b4, b5, b6, b7].foldl (fun acc bit =>
    acc * 2 + (if bit then 1 else 0)) 0) :: bitsToBytes rest
| _ => []

/-- `encodeData` from src/lib/qr.ts: mode indicator, character count,
payload bytes, terminator, byte-boundary padding, pad codewords; packed
into data codewords. -/
def encodeData (bytes : List ℕ) (version : ℕ) (ec : ECLevel) : List ℕ :=
  let b := blockInfo version ec
  let totalBits := (b.g1n * b.g1k + b.g2n * b.g2k) * 8
  let cc := if version ≤ 9 then 8 else 16
  let bits1 := pushBits 4 4 ++ pushBits bytes.length cc ++
    bytes.flatMap (fun x => pushBits x 8)
  let term := min 4 (totalBits - bits1.length)
  let bits2 := bits1 ++ List.replicate term false
  let bits3 := bits2 ++ List.replicate ((8 - bits2.length % 8) % 8) false
  let padWords := (totalBits - bits3.length + 7) / 8
  let bits4 := bits3 ++ (List.range padWords).flatMap (fun pi =>
    pushBits (if pi % 2 = 0 then 0xec else 0x11) 8)
  bitsToBytes bits4

/-- `interleave` from src/lib/qr.ts: split into blocks, RS-encode each,
emit data column-major then EC column-major. -/
def interleave (data : List ℕ) (version : ℕ) (ec : ECLevel) : List ℕ :=
  let b := blockInfo version ec
  let dBlocks :=
    (List.range b.g1n).map (fun i => (data.drop (i * b.g1k)).take b.g1k) ++
    (List.range b.g2n).map (fun i =>
      (data.drop (b.g1n * b.g1k + i * b.g2k)).take b.g2k)
  let ecBlocks := dBlocks.map (fun blk => rsEncode blk b.ecPer)
  let maxD := max b.g1k b.g2k
  ((List.range maxD).flatMap (fun i => dBlocks.filterMap (fun blk => blk.get? i))) ++
  ((List.range b.ecPer).flatMap (fun i => ecBlocks.map (fun blk => blk.getD i 0)))

/-- The codeword bit stream of `generateQR` (its lines 615-624): data
codewords, interleaving, bit expansion MSB-first, remainder bits. -/
def codewordStream (bytes : List ℕ) (version : ℕ) (ec : ECLevel) : List Bool :=
  let dataCW := encodeData bytes version ec
  let final := interleave dataCW version ec
  final.flatMap (fun byte => pushBits byte 8) ++
    List.replicate (REM_BITS.getD (version - 1) 0) false

/-!
## Data placement, masking, penalty
-/

/-- The sequence of `right` values of `placeData`'s outer loop
(`size-1, size-3, …`, shifting `6` to `5`), with explicit fuel. -/
def rightsListAux : ℕ → ℕ → List ℕ
| 0, _ => []
| _, 0 => []
| fuel + 1, r + 1 =>
  let r' := if r + 1 = 6 then 5 else r + 1
  r' :: rightsListAux fuel (r' - 2)

/-- The `right` values visited by `placeData`. -/
def rightsList (size : ℕ) : List ℕ := rightsListAux size (size - 1)

/-- `List.foldl` with a `Matrix × ℕ` accumulator forced at each step. -/
def foldlPD (f : Matrix × ℕ → α → Matrix × ℕ) : Matrix × ℕ → List α → Matrix × ℕ
| s, [] => s
| s, x :: xs =>
  match f s x with
  | (⟨0, 0⟩, 0) => foldlPD f (⟨0, 0⟩, 0) xs
  | (⟨0, 0⟩, c + 1) => foldlPD f (⟨0, 0⟩, c + 1) xs
  | (⟨0, b + 1⟩, 0) => foldlPD f (⟨0, b + 1⟩, 0) xs
  | (⟨0, b + 1⟩, c + 1) => foldlPD f (⟨0, b + 1⟩, c + 1) xs
  | (⟨a + 1, 0⟩, 0) => foldlPD f (⟨a + 1, 0⟩, 0) xs
  | (⟨a + 1, 0⟩, c + 1) => foldlPD f (⟨a + 1, 0⟩, c + 1) xs
  | (⟨a + 1, b + 1⟩, 0) => foldlPD f (⟨a + 1, b + 1⟩, 0) xs
  | (⟨a + 1, b + 1⟩, c + 1) => foldlPD f (⟨a + 1, b + 1⟩, c + 1) xs

theorem foldlPD_eq_foldl (f : Matrix × ℕ → α → Matrix × ℕ) (s : Matrix × ℕ)
    (l : List α) : foldlPD f s l = l.foldl f s := by
  induction l generalizing s with
  | nil => rfl
  | cons x xs ih =>
    rw [List.foldl_cons, ← ih (f s x)]
    rcases h : f s x with ⟨⟨_ | a, _ | b⟩, _ | c⟩ <;> simp only [foldlPD, h]

/-- `placeData` from src/lib/qr.ts: zig-zag placement of the bit list into
non-reserved cells (missing bits are light, as `bits[idx]` past the end is
not `=== 1`). -/
def placeData (size : ℕ) (m : Matrix) (bits : List Bool) : Matrix :=
  ((rightsList size).foldl (fun (st : (Matrix × ℕ) × Bool) right =>
    let up := st.2
    let inner := foldlPD (fun (st2 : Matrix × ℕ) v =>
      let row := if up then size - 1 - v else v
      foldlPD (fun (st3 : Matrix × ℕ) j =>
        let col := right - j
        if bitGet size st3.1.res row col then st3
        else (⟨bitSet size st3.1.mod row col (bits.getD st3.2 false), st3.1.res⟩,
              st3.2 + 1)) st2 (List.range 2)) st.1 (List.range size)
    (inner, !up)) ((m, 0), true)).1.1

/-- `MASKS` from src/lib/qr.ts: the eight mask predicates. -/
def maskAt (mask r c : ℕ) : Bool :=
match mask with
| 0 => decide ((r + c) % 2 = 0)
| 1 => decide (r % 2 = 0)
| 2 => decide (c % 3 = 0)
| 3 => decide ((r + c) % 3 = 0)
| 4 => decide ((r / 2 + c / 3) % 2 = 0)
| 5 => decide ((r * c) % 2 + (r * c) % 3 = 0)
| 6 => decide (((r * c) % 2 + (r * c) % 3) % 2 = 0)
| 7 => decide (((r + c) % 2 + (r * c) % 3) % 2 = 0)
| _ => false

/-- `applyMask` from src/lib/qr.ts: flip non-reserved cells where the mask
predicate holds. -/
def applyMask (size modg res maskIdx : ℕ) : ℕ :=
  foldlNat (fun g r =>
    foldlNat (fun g2 c =>
      if !bitGet size res r c && maskAt maskIdx r c then
        bitSet size g2 r c (!bitGet size g2 r c)
      else g2) g (List.range size)) modg (List.range size)

/-- Penalty rule 1 contribution of one line (row `r` if `byRow`, else
column `r`): runs of ≥ 5 equal cells, each contributing `length - 2`. -/
def runPenaltyLine (size modg : ℕ) (byRow : Bool) (r : ℕ) : ℕ :=
  let cell := fun i => if byRow then bitGet size modg r i else bitGet size modg i r
  let st := (List.range' 1 (size - 1)).foldl (fun (st : ℕ × ℕ) c =>
    if cell c == cell (c - 1) then (st.1 + 1, st.2)
    else (1, st.2 + (if 5 ≤ st.1 then st.1 - 2 else 0))) (1, 0)
  st.2 + (if 5 ≤ st.1 then st.1 - 2 else 0)

/-- Penalty rule 2: 3 per 2×2 monochrome block. -/
def rule2Penalty (size modg : ℕ) : ℕ :=
  ((List.range (size - 1)).map (fun r =>
    ((List.range (size - 1)).filter (fun c =>
      let v := bitGet size modg r c
      v == bitGet size modg r (c + 1) && v == bitGet size modg (r + 1) c &&
        v == bitGet size modg (r + 1) (c + 1))).length * 3)).sum

/-- The 11-cell window of a row (or column when `byRow = false`). -/
def window11 (size modg : ℕ) (byRow : Bool) (r c : ℕ) : List Bool :=
  (List.range 11).map (fun k =>
    if byRow then bitGet size modg r (c + k) else bitGet size modg (c + k) r)

/-- Penalty rule 3: 40 per finder-like 11-cell pattern, both orientations. -/
def rule3Penalty (size modg : ℕ) : ℕ :=
  let p1 := [true, false, true, true, true, false, true, false, false, false, false]
  let p2 := [false, false, false, false, true, false, true, true, true, false, true]
  (((List.range size).map (fun r =>
    ((List.range (size - 10)).map (fun c =>
      (if window11 size modg true r c == p1 then 40 else 0) +
      (if window11 size modg true r c == p2 then 40 else 0))).sum)).sum) +
  (((List.range size).map (fun r =>
    ((List.range (size - 10)).map (fun c =>
      (if window11 size modg false r c == p1 then 40 else 0) +
      (if window11 size modg false r c == p2 then 40 else 0))).sum)).sum)

/-- Number of dark cells of the grid. -/
def darkCount (size modg : ℕ) : ℕ :=
  ((List.range size).map (fun r =>
    ((List.range size).filter (fun c => bitGet size modg r c)).length)).sum

/-- Penalty rule 4: `Math.floor(Math.abs(pct - 50) / 5) * 10` where
`pct = dark * 100 / (size * size)`. The JS division is on doubles; for
every reachable value its floor equals the floor of the exact rational
quotient (the quotient is at least `1/size²` away from any multiple of 5
unless it is exactly an integer, far beyond double rounding error), and
that floor is the integer-arithmetic value below; see
`rule4Penalty_eq_floor` for the equality with the exact rational form. -/
def rule4Penalty (size modg : ℕ) : ℕ :=
  ((darkCount size modg * 100 : ℤ) - 50 * size * size).natAbs / (5 * size * size) * 10

/-- `calcPenalty` from src/lib/qr.ts: the sum of the four rules. -/
def calcPenalty (size modg : ℕ) : ℕ :=
  ((List.range size).map (runPenaltyLine size modg true)).sum +
  ((List.range size).map (runPenaltyLine size modg false)).sum +
  rule2Penalty size modg + rule3Penalty size modg + rule4Penalty size modg

/-!
## Format and version information
-/

/-- `EC_IND` from `writeFormatInfo`: binary EC indicators for L, M, Q, H. -/
def EC_IND : List ℕ := [1, 0, 3, 2]

/-- The 15-bit format word: `d = (ecInd << 3) | mask`, BCH remainder by
0x537, masked with 0x5412. -/
def formatInfoWord (ecIdx mask : ℕ) : ℕ :=
  let d := ((EC_IND.getD ecIdx 0) <<< 3) ||| mask
  let rem := (List.range 5).reverse.foldl (fun rem i =>
    if rem &&& (1 <<< (i + 10)) ≠ 0 then rem ^^^ (0x537 <<< i) else rem) (d <<< 10)
  ((d <<< 10) ||| rem) ^^^ 0x5412

/-- `writeFormatInfo` from src/lib/qr.ts: both format-info copies plus the
permanent dark module. -/
def writeFormatInfo (size modg ecIdx mask : ℕ) : ℕ :=
  let info := formatInfoWord ecIdx mask
  let g1 := (List.range 15).foldl (fun g i =>
    let dark := info.testBit i
    let g' :=
      if i < 6 then bitSet size g i 8 dark
      else if i < 8 then bitSet size g (i + 1) 8 dark
      else bitSet size g (size - 15 + i) 8 dark
    if i < 8 then bitSet size g' 8 (size - 1 - i) dark
    else if i < 9 then bitSet size g' 8 (15 - i - 1 + 1) dark
    else bitSet size g' 8 (15 - i - 1) dark) modg
  bitSet size g1 (size - 8) 8 true

/-- The 18-bit version word: BCH remainder by 0x1F25. -/
def versionInfoWord (version : ℕ) : ℕ :=
  let rem := (List.range 6).reverse.foldl (fun rem i =>
    if rem &&& (1 <<< (i + 12)) ≠ 0 then rem ^^^ (0x1f25 <<< i) else rem)
    (version <<< 12)
  (version <<< 12) ||| rem

/-- `writeVersionInfo` from src/lib/qr.ts: both version-info blocks. -/
def writeVersionInfo (size modg version : ℕ) : ℕ :=
  (List.range 18).foldl (fun g i =>
    let dark := (versionInfoWord version).testBit i
    let a := i / 3
    let b := size - 11 + i % 3
    bitSet size (bitSet size g b a dark) a b dark) modg

/-!
## generateQR
-/

/-- One mask trial of `generateQR`: mask the data-placed grid, write the
tentative format info and (for `v ≥ 7`) version info. The same composition
also produces the final grid for the chosen mask. -/
def trialGrid (size : ℕ) (m : Matrix) (ecIdx version mask : ℕ) : ℕ :=
  let test := applyMask size m.mod m.res mask
  let test2 := writeFormatInfo size test ecIdx mask
  if 7 ≤ version then writeVersionInfo size test2 version else test2

/-- The mask-selection loop of `generateQR`: lowest penalty wins, ties keep
the earlier mask (`bestPen` starts as `Infinity`, modelled by `none`). -/
def pickMask (size : ℕ) (m : Matrix) (ecIdx version : ℕ) : ℕ :=
  ((List.range 8).foldl (fun (best : ℕ × Option ℕ) mask =>
    let pen := calcPenalty size (trialGrid size m ecIdx version mask)
    match best.2 with
    | none => (mask, some pen)
    | some bp => if pen < bp then (mask, some pen) else best) (0, none)).1

/-- The `QRCode` record of src/lib/qr.ts. -/
structure QRCode where
  modules : List (List Bool)
  size : ℕ
  version : ℕ
deriving DecidableEq, Repr

/-- Unpack a packed grid into the `boolean[][]` shape of the source. -/
def decodeGrid (size g : ℕ) : List (List Bool) :=
  (List.range size).map (fun r => (List.range size).map (fun c => bitGet size g r c))

/-- `generateQR` from src/lib/qr.ts, over the UTF-8 byte list of the input
string (`text.length === 0` iff the byte list is empty). -/
def generateQR (bytes : List ℕ) (ecLevel : ECLevel) : Option QRCode :=
  if bytes.length = 0 then none
  else
    let version := getMinVersion bytes.length ecLevel
    if version = -1 then none
    else
      let v := version.toNat
      let bits := codewordStream bytes v ecLevel
      let p := buildMatrix v
      let m := placeData p.2 p.1 bits
      let ecIdx := EC_IDX ecLevel
      let bestMask := pickMask p.2 m ecIdx v
      let final := trialGrid p.2 m ecIdx v bestMask
      some ⟨decodeGrid p.2 final, p.2, v⟩

/-!
## Basic lemmas about packed grids
-/

theorem cellIdx_inj {size r c r' c' : ℕ} (hc : c < size) (hc' : c' < size)
    (h : r * size + c = r' * size + c') : r = r' ∧ c = c' := by
  have hs : 0 < size := by omega
  have h1 : (r * size + c) / size = r := by
    rw [Nat.add_comm, Nat.add_mul_div_right _ _ hs, Nat.div_eq_of_lt hc]; omega
  have h2 : (r' * size + c') / size = r' := by
    rw [Nat.add_comm, Nat.add_mul_div_right _ _ hs, Nat.div_eq_of_lt hc']; omega
  have h3 : (r * size + c) % size = c := by
    rw [Nat.add_comm, Nat.add_mul_mod_self_right, Nat.mod_eq_of_lt hc]
  have h4 : (r' * size + c') % size = c' := by
    rw [Nat.add_comm, Nat.add_mul_mod_self_right, Nat.mod_eq_of_lt hc']
  constructor
  · rw [← h1, ← h2, h]
  · rw [← h3, ← h4, h]

theorem bitGet_oob {size g r c : ℕ} (h : ¬(r < size ∧ c < size)) :
    bitGet size g r c = false := by
  unfold bitGet
  rcases Decidable.not_and_iff_or_not.mp h with h1 | h1 <;> simp [h1]

theorem bitGet_bitSet_eq {size g r c : ℕ} (b : Bool) (hr : r < size) (hc : c < size) :
    bitGet size (bitSet size g r c b) r c = b := by
  unfold bitGet bitSet
  rw [if_pos ⟨hr, hc⟩]
  cases b with
  | true =>
    simp [hr, hc, Nat.testBit_lor, Nat.one_shiftLeft, Nat.testBit_two_pow_self]
  | false =>
    simp [hr, hc, Nat.testBit_xor, Nat.testBit_land, Nat.one_shiftLeft,
      Nat.testBit_two_pow_self]

theorem bitGet_bitSet_ne {size g r c r' c' : ℕ} (b : Bool)
    (h : r ≠ r' ∨ c ≠ c') :
    bitGet size (bitSet size g r c b) r' c' = bitGet size g r' c' := by
  unfold bitSet
  by_cases hin : r < size ∧ c < size
  · rw [if_pos hin]
    by_cases hin' : r' < size ∧ c' < size
    · have hne : r * size + c ≠ r' * size + c' := by
        intro he
        rcases cellIdx_inj hin.2 hin'.2 he with ⟨h1, h2⟩
        rcases h with h | h <;> exact h (by omega)
      unfold bitGet
      cases b with
      | true =>
        simp [Nat.testBit_lor, Nat.one_shiftLeft, Nat.testBit_two_pow_of_ne hne]
      | false =>
        simp [Nat.testBit_xor, Nat.testBit_land, Nat.one_shiftLeft,
          Nat.testBit_two_pow_of_ne hne]
    · rw [bitGet_oob hin', bitGet_oob hin']
  · rw [if_neg hin]

/-- Writing `true` anywhere keeps every `true` cell `true`. -/
theorem bitGet_bitSet_true_of_true {size g r c r' c' : ℕ}
    (h : bitGet size g r' c' = true) :
    bitGet size (bitSet size g r c true) r' c' = true := by
  by_cases he : r = r' ∧ c = c'
  · rcases he with ⟨rfl, rfl⟩
    by_cases hin : r < size ∧ c < size
    · exact bitGet_bitSet_eq true hin.1 hin.2
    · rw [bitGet_oob hin] at h; exact absurd h (by simp)
  · rw [bitGet_bitSet_ne true (by tauto)]
    exact h

/-!
## Version selection: characterization of the search loop
-/

theorem getMinVersionLoop_cases (B : ℕ) (e : ECLevel) :
    ∀ rem v, (∃ w : ℕ, getMinVersionLoop B e v rem = (w : Int) ∧ v ≤ w ∧ w < v + rem ∧
        needBits w B ≤ capBits w e ∧
        ∀ u, v ≤ u → u < w → capBits u e < needBits u B) ∨
      (getMinVersionLoop B e v rem = -1 ∧
        ∀ u, v ≤ u → u < v + rem → capBits u e < needBits u B) := by
  intro rem
  induction rem with
  | zero =>
    intro v
    right
    exact ⟨rfl, fun u h1 h2 => by omega⟩
  | succ n ih =>
    intro v
    by_cases hf : needBits v B ≤ capBits v e
    · left
      exact ⟨v, by simp [getMinVersionLoop, hf], le_refl v, by omega, hf,
        fun u h1 h2 => by omega⟩
    · have hrec : getMinVersionLoop B e v (n + 1) = getMinVersionLoop B e (v + 1) n := by
        simp [getMinVersionLoop, hf]
      rcases ih (v + 1) with ⟨w, h1, h2, h3, h4, h5⟩ | ⟨h1, h2⟩
      · left
        refine ⟨w, by rw [hrec]; exact h1, by omega, by omega, h4, fun u hu1 hu2 => ?_⟩
        rcases Nat.eq_or_lt_of_le hu1 with rfl | hu
        · omega
        · exact h5 u (by omega) hu2
      · right
        refine ⟨by rw [hrec]; exact h1, fun u hu1 hu2 => ?_⟩
        rcases Nat.eq_or_lt_of_le hu1 with rfl | hu
        · omega
        · exact h2 u (by omega) (by omega)

/-- If `getMinVersion` returns a version, it is the least fitting one. -/
theorem getMinVersion_eq_coe (B : ℕ) (e : ECLevel) (w : ℕ)
    (h : getMinVersion B e = (w : Int)) :
    1 ≤ w ∧ w ≤ 40 ∧ needBits w B ≤ capBits w e ∧
      ∀ u, 1 ≤ u → u < w → capBits u e < needBits u B := by
  rcases getMinVersionLoop_cases B e 40 1 with ⟨w', h1, h2, h3, h4, h5⟩ | ⟨h1, _⟩
  · rw [getMinVersion] at h
    rw [h1] at h
    have : w' = w := by exact_mod_cast h
    subst this
    exact ⟨h2, by omega, h4, h5⟩
  · rw [getMinVersion] at h
    rw [h1] at h
    exact absurd h (by simp)

/-- `getMinVersion` returns `-1` exactly when no version 1..40 fits. -/
theorem getMinVersion_eq_neg_one (B : ℕ) (e : ECLevel) :
    getMinVersion B e = -1 ↔
      ∀ u, 1 ≤ u → u ≤ 40 → capBits u e < needBits u B := by
  rcases getMinVersionLoop_cases B e 40 1 with ⟨w, h1, h2, h3, h4, h5⟩ | ⟨h1, h2⟩
  · rw [getMinVersion, h1]
    constructor
    · intro h; exact absurd h (by simp)
    · intro h; exact absurd h4 (by have := h w h2 (by omega); omega)
  · rw [getMinVersion, h1]
    exact ⟨fun _ u hu1 hu2 => h2 u hu1 (by omega), fun _ => rfl⟩

/-- `getMinVersion` returns either `-1` or a version in 1..40. -/
theorem getMinVersion_cases (B : ℕ) (e : ECLevel) :
    getMinVersion B e = -1 ∨
      ∃ w : ℕ, getMinVersion B e = (w : Int) ∧ 1 ≤ w ∧ w ≤ 40 := by
  rcases getMinVersionLoop_cases B e 40 1 with ⟨w, h1, h2, h3, _, _⟩ | ⟨h1, _⟩
  · right; exact ⟨w, by rw [getMinVersion, h1], h2, by omega⟩
  · left; rw [getMinVersion, h1]

/-!
## Structure of `generateQR` results
-/

/-- The grid produced for a chosen version: data placement on the fresh
matrix, then the chosen mask, format info and (for v ≥ 7) version info. -/
def finalGrid (bytes : List ℕ) (e : ECLevel) (v : ℕ) : ℕ :=
  let p := buildMatrix v
  let m := placeData p.2 p.1 (codewordStream bytes v e)
  trialGrid p.2 m (EC_IDX e) v (pickMask p.2 m (EC_IDX e) v)

theorem generateQR_eq_some {bytes : List ℕ} {e : ECLevel} {q : QRCode}
    (h : generateQR bytes e = some q) :
    bytes ≠ [] ∧
    ∃ v : ℕ, getMinVersion bytes.length e = (v : Int) ∧ 1 ≤ v ∧ v ≤ 40 ∧
      q = ⟨decodeGrid (buildMatrix v).2 (finalGrid bytes e v), (buildMatrix v).2, v⟩ := by
  unfold generateQR at h
  by_cases hb : bytes.length = 0
  · rw [if_pos hb] at h; exact absurd h (by simp)
  · rw [if_neg hb] at h
    rcases getMinVersion_cases bytes.length e with h1 | ⟨w, h1, h2, h3⟩
    · rw [h1] at h
      exact absurd h (by simp)
    · rw [h1] at h
      have hne : (w : Int) ≠ -1 := by simp
      rw [if_neg hne] at h
      refine ⟨fun hnil => hb (by rw [hnil]; rfl), w, h1, h2, h3, ?_⟩
      exact (Option.some.inj h).symm

/-- C2: for every accepted payload of `B` bytes at level `e`, the version
of the returned QR code is the smallest `v` in 1..40 with
`4 + ccBits v + 8*B ≤ (g1n*g1k + g2n*g2k) * 8` (see `needBits`, `ccBits`
and `capBits`, which read the block-table row for `(v, e)`;
`ccBits v = 8` for `v ≤ 9` and `16` for `v ≥ 10`). -/
theorem C2_minimal_version (bytes : List ℕ) (e : ECLevel) (q : QRCode)
    (h : generateQR bytes e = some q) :
    1 ≤ q.version ∧ q.version ≤ 40 ∧
      needBits q.version bytes.length ≤ capBits q.version e ∧
      ∀ u, 1 ≤ u → u < q.version → capBits u e < needBits u bytes.length := by
  rcases generateQR_eq_some h with ⟨hne, v, h1, h2, h3, rfl⟩
  exact getMinVersion_eq_coe _ _ _ h1

/-- Witness for C2 at the one-byte payload `[49]` at level M. -/
theorem C2_minimal_version_witness :
    ∃ q, generateQR [49] ECLevel.M = some q ∧
      (1 ≤ q.version ∧ q.version ≤ 40 ∧
        needBits q.version 1 ≤ capBits q.version ECLevel.M ∧
        ∀ u, 1 ≤ u → u < q.version → capBits u ECLevel.M < needBits u 1) := by
  cases hq : generateQR [49] ECLevel.M with
  | none =>
    have hs : (generateQR [49] ECLevel.M).isSome = true := rfl
    rw [hq] at hs
    cases hs
  | some q =>
    exact ⟨q, rfl, by simpa using C2_minimal_version [49] ECLevel.M q hq⟩

/-- C1: `generateQR` returns the absent value exactly when the byte list
is empty or no version 1..40 has enough capacity for it at the requested
level; in every other case it returns a `QRCode` record. (The embedding is
a total function into `Option QRCode`: failure is always the absent value,
never an exception.) -/
theorem C1_none_iff (bytes : List ℕ) (e : ECLevel) :
    (generateQR bytes e = none ↔
      bytes = [] ∨ ∀ u, 1 ≤ u → u ≤ 40 → capBits u e < needBits u bytes.length) ∧
    (generateQR bytes e ≠ none → ∃ q : QRCode, generateQR bytes e = some q) := by
  constructor
  · constructor
    · intro h
      by_cases hb : bytes = []
      · left; exact hb
      · right
        have hbl : ¬ bytes.length = 0 := by simpa using hb
        unfold generateQR at h
        rw [if_neg hbl] at h
        rcases getMinVersion_cases bytes.length e with h1 | ⟨w, h1, h2, h3⟩
        · exact (getMinVersion_eq_neg_one _ _).mp h1
        · rw [h1] at h
          rw [if_neg (by simp : (w : Int) ≠ -1)] at h
          exact absurd h (by simp)
    · intro h
      rcases h with rfl | h
      · rfl
      · have h1 : getMinVersion bytes.length e = -1 :=
          (getMinVersion_eq_neg_one _ _).mpr h
        unfold generateQR
        by_cases hb : bytes.length = 0
        · rw [if_pos hb]
        · rw [if_neg hb, h1]
          rfl
  · intro h
    cases hq : generateQR bytes e with
    | none => exact absurd hq h
    | some q => exact ⟨q, rfl⟩

/-- Witness for C1 at the empty input and at a large input. -/
theorem C1_none_iff_witness :
    ((generateQR [] ECLevel.M = none ↔
      ([] : List ℕ) = [] ∨ ∀ u, 1 ≤ u → u ≤ 40 →
        capBits u ECLevel.M < needBits u ([] : List ℕ).length) ∧
     (generateQR [] ECLevel.M ≠ none →
       ∃ q : QRCode, generateQR [] ECLevel.M = some q)) :=
  C1_none_iff [] ECLevel.M

/-!
## C8: capacity boundary
-/

/-- The largest byte count that fits version `v` at level `e`. -/
def maxBytes (v : ℕ) (e : ECLevel) : ℕ := (capBits v e - 4 - ccBits v) / 8

/-- Decidable per-(version, level) boundary check used by C8. -/
def boundaryCheck (v : ℕ) (e : ECLevel) : Bool :=
  (getMinVersion (maxBytes v e) e == (v : Int)) &&
  ((getMinVersion (maxBytes v e + 1) e == ((v + 1 : ℕ) : Int)) ||
    (getMinVersion (maxBytes v e + 1) e == -1)) &&
  decide (1 ≤ maxBytes v e)

set_option maxHeartbeats 1600000 in
theorem boundaryCheck_true (v : ℕ) (e : ECLevel) (h1 : 1 ≤ v) (h2 : v ≤ 40) :
    boundaryCheck v e = true := by
  have hbc : ((List.range 40).all fun i =>
      [ECLevel.L, ECLevel.M, ECLevel.Q, ECLevel.H].all fun e' =>
        boundaryCheck (i + 1) e') = true := by decide
  have hv : v - 1 ∈ List.range 40 := by
    rw [List.mem_range]; omega
  have := List.all_eq_true.mp hbc _ hv
  have hv1 : v - 1 + 1 = v := by omega
  rw [hv1] at this
  simp only [List.all_cons, List.all_nil, Bool.and_eq_true, and_true] at this
  cases e <;> tauto

/-- A `generateQR` success with a prescribed version, given the version
selector's answer. -/
theorem generateQR_some_of {bytes : List ℕ} {e : ECLevel} {v : ℕ}
    (hb : bytes ≠ []) (h : getMinVersion bytes.length e = (v : Int)) :
    ∃ q, generateQR bytes e = some q ∧ q.version = v := by
  have hbl : ¬ bytes.length = 0 := by simpa using hb
  refine ⟨⟨decodeGrid (buildMatrix v).2 (finalGrid bytes e v), (buildMatrix v).2, v⟩, ?_, rfl⟩
  unfold generateQR
  rw [if_neg hbl, h]
  rw [if_neg (by simp : (v : Int) ≠ -1)]
  simp [finalGrid]

/-- C8: for every version `v` in 1..40 and level `e`, the largest byte
length fitting `(v, e)` (`maxBytes v e`) makes `generateQR` select exactly
version `v`, and one byte more selects version `v + 1` or returns `none`. -/
theorem C8_capacity_boundary (v : ℕ) (e : ECLevel) (h1 : 1 ≤ v) (h2 : v ≤ 40) :
    (needBits v (maxBytes v e) ≤ capBits v e ∧
      ∀ B, maxBytes v e < B → capBits v e < needBits v B) ∧
    (∀ bytes : List ℕ, bytes.length = maxBytes v e →
      ∃ q, generateQR bytes e = some q ∧ q.version = v) ∧
    (∀ bytes : List ℕ, bytes.length = maxBytes v e + 1 →
      generateQR bytes e = none ∨
        ∃ q, generateQR bytes e = some q ∧ q.version = v + 1) := by
  have hbc := boundaryCheck_true v e h1 h2
  unfold boundaryCheck at hbc
  simp only [Bool.and_eq_true, Bool.or_eq_true, beq_iff_eq, decide_eq_true_eq] at hbc
  obtain ⟨⟨hsel, hnext⟩, hpos⟩ := hbc
  have hfit := getMinVersion_eq_coe _ _ _ hsel
  have hveq : v = v := rfl
  constructor
  · constructor
    · have hv' : (v : Int) = (v : Int) := rfl
      have := hfit.2.2.1
      exact this
    · intro B hB
      have hcap := hfit.2.2.1
      unfold needBits at hcap ⊢
      unfold maxBytes at hB hcap
      omega
  · constructor
    · intro bytes hlen
      have hb : bytes ≠ [] := by
        intro hnil
        rw [hnil] at hlen
        simp at hlen
        omega
      exact generateQR_some_of hb (by rw [hlen]; exact hsel)
    · intro bytes hlen
      have hb : bytes ≠ [] := by
        intro hnil
        rw [hnil] at hlen
        simp at hlen
      rcases hnext with hnext | hnext
      · right
        exact generateQR_some_of hb (by rw [hlen]; exact hnext)
      · left
        have hbl : ¬ bytes.length = 0 := by simpa using hb
        unfold generateQR
        rw [if_neg hbl, hlen, hnext]
        rfl

/-- Witness for C8 at version 1, level L. -/
theorem C8_capacity_boundary_witness :
    (needBits 1 (maxBytes 1 ECLevel.L) ≤ capBits 1 ECLevel.L ∧
      ∀ B, maxBytes 1 ECLevel.L < B → capBits 1 ECLevel.L < needBits 1 B) ∧
    (∀ bytes : List ℕ, bytes.length = maxBytes 1 ECLevel.L →
      ∃ q, generateQR bytes ECLevel.L = some q ∧ q.version = 1) ∧
    (∀ bytes : List ℕ, bytes.length = maxBytes 1 ECLevel.L + 1 →
      generateQR bytes ECLevel.L = none ∨
        ∃ q, generateQR bytes ECLevel.L = some q ∧ q.version = 2) :=
  C8_capacity_boundary 1 ECLevel.L (by decide) (by decide)

/-!
## C9: penalty rule 4
-/

/-- C9: the rule-4 summand of `calcPenalty` equals
`⌊|d% − 50| / 5⌋ * 10` where `d%` is the exact rational value
`dark * 100 / (size * size)`. -/
theorem C9_rule4_exact (size modg : ℕ) (h : 0 < size) :
    rule4Penalty size modg =
      (Int.floor
        (|((darkCount size modg : ℚ) * 100) / ((size : ℚ) * size) - 50| / 5)).toNat
        * 10 := by
  have hs0 : ((size : ℚ) * size) ≠ 0 := by positivity
  have hsq : (0 : ℚ) < (size : ℚ) * size := by positivity
  have key : ((darkCount size modg : ℚ) * 100) / ((size : ℚ) * size) - 50 =
      (((darkCount size modg * 100 : ℤ) - 50 * size * size : ℤ) : ℚ) /
        ((size : ℚ) * size) := by
    field_simp
    ring
  rw [key, abs_div, abs_of_pos hsq, div_div]
  have habs : |(((darkCount size modg * 100 : ℤ) - 50 * size * size : ℤ) : ℚ)| =
      ((((darkCount size modg * 100 : ℤ) - 50 * size * size).natAbs : ℕ) : ℚ) := by
    rw [Int.cast_natAbs, Int.cast_abs]
  rw [habs]
  have hden : ((size : ℚ) * size * 5) = ((5 * size * size : ℕ) : ℚ) := by
    push_cast
    ring
  rw [hden, Int.floor_toNat, Nat.floor_div_nat]
  rfl

/-- Witness for C9 at `size = 21` on the empty grid. -/
theorem C9_rule4_exact_witness :
    rule4Penalty 21 0 =
      (Int.floor (|((darkCount 21 0 : ℚ) * 100) / ((21 : ℚ) * 21) - 50| / 5)).toNat
        * 10 :=
  C9_rule4_exact 21 0 (by decide)

/-!
## C3: format information

A second definition written from the specification text, compared with the
source's `writeFormatInfo`.
-/

/-- Modelled from the spec: EC indicators L→01, M→00, Q→11, H→10. -/
def specECIndicator : ECLevel → ℕ
| .L => 1
| .M => 0
| .Q => 3
| .H => 2

/-- Modelled from the spec: `d = (ecIndicator << 3) | maskIndex`, the BCH
remainder of `d << 10` divided by 0x537 (XOR `0x537 << i` whenever bit
`i + 10` of the accumulator is set, `i` from 4 down to 0), concatenated and
XORed with 0x5412. -/
def specFormatInfoWord (e : ECLevel) (mask : ℕ) : ℕ :=
  let d := (specECIndicator e <<< 3) ||| mask
  let rem := (List.range 5).reverse.foldl (fun rem i =>
    if rem &&& (1 <<< (i + 10)) ≠ 0 then rem ^^^ (0x537 <<< i) else rem) (d <<< 10)
  ((d <<< 10) ||| rem) ^^^ 0x5412

/-- Modelled from the spec: the vertical-copy row of format bit `i`
(column 8): bits 0..5 to rows 0..5, bit 6 to row 7 skipping the timing row
6, bit 7 to row 8, bits 8..14 to rows `size-7 .. size-1`. -/
def fmtVRow (size i : ℕ) : ℕ :=
  if i ≤ 5 then i
  else if i = 6 then 7
  else if i = 7 then 8
  else size - 7 + (i - 8)

/-- Modelled from the spec: the horizontal-copy column of format bit `i`
(row 8): bits 0..7 to columns `size-1 .. size-8`, bit 8 to column 7
skipping the timing column 6, bits 9..14 to columns 5..0. -/
def fmtHCol (size i : ℕ) : ℕ :=
  if i ≤ 7 then size - 1 - i
  else if i = 8 then 7
  else 14 - i

/-- Modelled from the spec: write the 15 format bits LSB-first at the two
redundant copies, then re-assert the dark module at `(size-8, 8)`. -/
def specWriteFormatInfo (size modg : ℕ) (e : ECLevel) (mask : ℕ) : ℕ :=
  let info := specFormatInfoWord e mask
  let g1 := (List.range 15).foldl (fun g i =>
    bitSet size (bitSet size g (fmtVRow size i) 8 (info.testBit i))
      8 (fmtHCol size i) (info.testBit i)) modg
  bitSet size g1 (size - 8) 8 true

theorem formatInfoWord_eq_spec (e : ECLevel) (mask : ℕ) :
    formatInfoWord (EC_IDX e) mask = specFormatInfoWord e mask := by
  cases e <;> rfl

/-- C3: `writeFormatInfo` computes exactly the 15-bit word
`((d << 10) | rem) ^^^ 0x5412` described by the specification and writes
its bits LSB-first at exactly the specified cells of column 8 and row 8. -/
theorem C3_format_info (e : ECLevel) (mask size modg : ℕ) (hsize : 15 ≤ size) :
    writeFormatInfo size modg (EC_IDX e) mask = specWriteFormatInfo size modg e mask := by
  unfold writeFormatInfo specWriteFormatInfo
  rw [formatInfoWord_eq_spec]
  dsimp only
  congr 1
  refine List.foldl_ext _ _ _ (fun g i hi => ?_)
  rw [List.mem_range] at hi
  dsimp only
  have hv : (if i < 6 then bitSet size g i 8 ((specFormatInfoWord e mask).testBit i)
      else if i < 8 then bitSet size g (i + 1) 8 ((specFormatInfoWord e mask).testBit i)
      else bitSet size g (size - 15 + i) 8 ((specFormatInfoWord e mask).testBit i)) =
      bitSet size g (fmtVRow size i) 8 ((specFormatInfoWord e mask).testBit i) := by
    unfold fmtVRow
    split_ifs <;> first | rfl | (congr 1; omega)
  rw [hv]
  have hh : ∀ g' : ℕ, (if i < 8 then bitSet size g' 8 (size - 1 - i) ((specFormatInfoWord e mask).testBit i)
      else if i < 9 then bitSet size g' 8 (15 - i - 1 + 1) ((specFormatInfoWord e mask).testBit i)
      else bitSet size g' 8 (15 - i - 1) ((specFormatInfoWord e mask).testBit i)) =
      bitSet size g' 8 (fmtHCol size i) ((specFormatInfoWord e mask).testBit i) := by
    intro g'
    unfold fmtHCol
    split_ifs <;> first | rfl | (congr 1; omega)
  rw [hh]

/-- Witness for C3 at level Q, mask 5, size 21, empty grid. -/
theorem C3_format_info_witness :
    writeFormatInfo 21 0 (EC_IDX ECLevel.Q) 5 = specWriteFormatInfo 21 0 ECLevel.Q 5 :=
  C3_format_info ECLevel.Q 5 21 0 (by decide)

/-!
## C5: the data codeword bit stream
-/

theorem pushBits_length (val len : ℕ) : (pushBits val len).length = len := by
  simp [pushBits]

theorem flatMap_pushBits8_length (l : List ℕ) :
    (l.flatMap (fun b => pushBits b 8)).length = 8 * l.length := by
  induction l with
  | nil => rfl
  | cons x xs ih =>
    simp only [List.flatMap_cons, List.length_append, List.length_cons, ih, pushBits_length]
    ring

theorem length_flatMap_pushBits8_range (n : ℕ) (f : ℕ → ℕ) :
    ((List.range n).flatMap (fun pi => pushBits (f pi) 8)).length = 8 * n := by
  induction n with
  | zero => rfl
  | succ m ih =>
    rw [List.range_succ, List.flatMap_append]
    simp only [List.length_append, ih, List.flatMap_cons, List.flatMap_nil,
      List.append_nil, pushBits_length]
    ring

/-- Unpacking one packed byte (MSB-first) recovers its eight bits. -/
theorem pushBits_byteOfBits :
    ∀ b0 b1 b2 b3 b4 b5 b6 b7 : Bool,
      pushBits ([b0, b1, b2, b3, b4, b5, b6, b7].foldl
        (fun acc bit => acc * 2 + (if bit then 1 else 0)) 0) 8 =
      [b0, b1, b2, b3, b4, b5, b6, b7] := by decide

/-- `bitsToBytes` packs groups of 8 and drops a short remainder. -/
theorem bitsToBytes_length (l : List Bool) :
    (bitsToBytes l).length = l.length / 8 := by
  induction l using bitsToBytes.induct with
  | case1 b0 b1 b2 b3 b4 b5 b6 b7 rest ih =>
    simp only [bitsToBytes, List.length_cons, ih]
    omega
  | case2 l hne =>
    have hlt : l.length < 8 := by
      rcases l with _ | ⟨a0, _ | ⟨a1, _ | ⟨a2, _ | ⟨a3, _ | ⟨a4, _ | ⟨a5, _ | ⟨a6, _ | ⟨a7, r⟩⟩⟩⟩⟩⟩⟩⟩ <;>
        first
          | exact (hne _ _ _ _ _ _ _ _ _ rfl).elim
          | simp
    have hz : bitsToBytes l = [] := by
      rw [bitsToBytes.eq_def]
      split
      · rename_i b0 b1 b2 b3 b4 b5 b6 b7 rest
        exact (hne b0 b1 b2 b3 b4 b5 b6 b7 rest rfl).elim
      · rfl
    simp [hz, Nat.div_eq_of_lt hlt]

/-- MSB-first unpacking of `bitsToBytes` recovers the bit list when its
length is a multiple of 8. -/
theorem bitsToBytes_flatMap (l : List Bool) (h : l.length % 8 = 0) :
    (bitsToBytes l).flatMap (fun b => pushBits b 8) = l := by
  induction l using bitsToBytes.induct with
  | case1 b0 b1 b2 b3 b4 b5 b6 b7 rest ih =>
    have hr : rest.length % 8 = 0 := by
      simp only [List.length_cons] at h
      omega
    simp only [bitsToBytes, List.flatMap_cons, ih hr, pushBits_byteOfBits]
    rfl
  | case2 l hne =>
    have hlt : l.length < 8 := by
      rcases l with _ | ⟨a0, _ | ⟨a1, _ | ⟨a2, _ | ⟨a3, _ | ⟨a4, _ | ⟨a5, _ | ⟨a6, _ | ⟨a7, r⟩⟩⟩⟩⟩⟩⟩⟩ <;>
        first
          | exact (hne _ _ _ _ _ _ _ _ _ rfl).elim
          | simp
    have hl : l = [] := by
      rw [← List.length_eq_zero]
      omega
    subst hl
    rfl

/-- Modelled from the spec (claim C5): the data bit stream, in order: the
4-bit mode indicator 0100, the byte count in `ccBits v` MSB-first bits,
the payload bytes as 8 MSB-first bits each, a terminator of
`min 4 (capBits - soFar)` zero bits, zero padding to the next byte
boundary, and pad codewords 0xEC, 0x11 alternating until exactly
`capBits` bits are present. -/
def specDataBits (bytes : List ℕ) (v : ℕ) (e : ECLevel) : List Bool :=
  let cap := capBits v e
  let head := [false, true, false, false] ++ pushBits bytes.length (ccBits v) ++
    bytes.flatMap (fun b => pushBits b 8)
  let withTerm := head ++ List.replicate (min 4 (cap - head.length)) false
  let toByte := withTerm ++ List.replicate ((8 - withTerm.length % 8) % 8) false
  toByte ++ (List.range ((cap - toByte.length) / 8)).flatMap (fun pi =>
    pushBits (if pi % 2 = 0 then 0xec else 0x11) 8)

theorem capBits_mod_eight (v : ℕ) (e : ECLevel) : capBits v e % 8 = 0 := by
  have h : capBits v e =
      ((blockInfo v e).g1n * (blockInfo v e).g1k +
        (blockInfo v e).g2n * (blockInfo v e).g2k) * 8 := rfl
  omega

theorem specDataBits_length (bytes : List ℕ) (v : ℕ) (e : ECLevel)
    (hfit : needBits v bytes.length ≤ capBits v e) :
    (specDataBits bytes v e).length = capBits v e := by
  have h8 := capBits_mod_eight v e
  unfold needBits at hfit
  unfold specDataBits
  dsimp only
  simp only [List.length_append, List.length_cons, List.length_nil, List.length_replicate,
    pushBits_length, flatMap_pushBits8_length, length_flatMap_pushBits8_range]
  omega

theorem encodeData_eq_pack_spec (bytes : List ℕ) (v : ℕ) (e : ECLevel) :
    encodeData bytes v e = bitsToBytes (specDataBits bytes v e) := by
  have h8 := capBits_mod_eight v e
  unfold encodeData specDataBits
  dsimp only
  congr 1
  rw [show pushBits 4 4 = [false, true, false, false] from rfl]
  rw [show (if v ≤ 9 then (8 : ℕ) else 16) = ccBits v from rfl]
  rw [show ((blockInfo v e).g1n * (blockInfo v e).g1k +
    (blockInfo v e).g2n * (blockInfo v e).g2k) * 8 = capBits v e from rfl]
  congr 3
  simp only [List.length_append, List.length_cons, List.length_nil, List.length_replicate,
    pushBits_length, flatMap_pushBits8_length]
  omega

/-- C5: for every payload fitting version `v` at level `e`, the MSB-first
bit expansion of `encodeData`'s codewords is exactly the stream of claim
C5 (`specDataBits`), that stream has exactly `capBits` bits, and the
codeword list has exactly `capBits / 8` entries. -/
theorem C5_data_bit_stream (bytes : List ℕ) (v : ℕ) (e : ECLevel)
    (hfit : needBits v bytes.length ≤ capBits v e) :
    (encodeData bytes v e).flatMap (fun b => pushBits b 8) = specDataBits bytes v e ∧
    (specDataBits bytes v e).length = capBits v e ∧
    (encodeData bytes v e).length = capBits v e / 8 := by
  have hlen := specDataBits_length bytes v e hfit
  have heq := encodeData_eq_pack_spec bytes v e
  have h8 := capBits_mod_eight v e
  refine ⟨?_, hlen, ?_⟩
  · rw [heq, bitsToBytes_flatMap]
    rw [hlen]
    omega
  · rw [heq, bitsToBytes_length, hlen]

/-- Witness for C5: the two-byte payload `[104, 105]` at version 1, M. -/
theorem C5_data_bit_stream_witness :
    ((encodeData [104, 105] 1 ECLevel.M).flatMap (fun b => pushBits b 8) =
      specDataBits [104, 105] 1 ECLevel.M ∧
    (specDataBits [104, 105] 1 ECLevel.M).length = capBits 1 ECLevel.M ∧
    (encodeData [104, 105] 1 ECLevel.M).length = capBits 1 ECLevel.M / 8) :=
  C5_data_bit_stream [104, 105] 1 ECLevel.M (by decide)


/-!
## C6: interleaving
-/

/-- Modelled from the spec (claim C6): `n` sequential blocks of `k`
codewords taken from the front of `data`. -/
def specBlocks : ℕ → ℕ → List ℕ → List (List ℕ)
| 0, _, _ => []
| n + 1, k, data => data.take k :: specBlocks n k (data.drop k)

/-- Modelled from the spec (claim C6): partition the data codewords
sequentially into `g1n` blocks of `g1k` then `g2n` blocks of `g2k`. -/
def specPartition (data : List ℕ) (v : ℕ) (e : ECLevel) : List (List ℕ) :=
  let b := blockInfo v e
  specBlocks b.g1n b.g1k data ++ specBlocks b.g2n b.g2k (data.drop (b.g1n * b.g1k))

/-- Modelled from the spec (claim C6): each block's RS codewords of length
`ecPerBlock`, then column-major data (i-th codeword of each block when
present) followed by column-major EC. -/
def specInterleave (data : List ℕ) (v : ℕ) (e : ECLevel) : List ℕ :=
  let b := blockInfo v e
  let dBlocks := specPartition data v e
  let ecBlocks := dBlocks.map (fun blk => rsEncode blk b.ecPer)
  ((List.range (max b.g1k b.g2k)).flatMap fun i =>
    dBlocks.filterMap (fun blk => blk.get? i)) ++
  ((List.range b.ecPer).flatMap fun i => ecBlocks.map (fun blk => blk.getD i 0))

/-- Modelled from the spec (claim C6): the final bit stream of an accepted
payload: the interleaved sequence MSB-first plus `REM_BITS[version-1]`
zero bits. -/
def specFinalStream (bytes : List ℕ) (v : ℕ) (e : ECLevel) : List Bool :=
  (specInterleave (encodeData bytes v e) v e).flatMap (fun b => pushBits b 8) ++
    List.replicate (REM_BITS.getD (v - 1) 0) false

theorem specBlocks_eq_map (n k : ℕ) :
    ∀ data : List ℕ, specBlocks n k data =
      (List.range n).map (fun i => (data.drop (i * k)).take k) := by
  induction n with
  | zero => intro data; rfl
  | succ m ih =>
    intro data
    rw [List.range_succ_eq_map, List.map_cons, List.map_map]
    unfold specBlocks
    rw [ih (data.drop k)]
    simp only [List.drop_zero, Nat.zero_mul, List.map_map]
    congr 1
    refine List.map_congr_left (fun i hi => ?_)
    simp only [Function.comp_apply]
    rw [List.drop_drop]
    congr 2
    rw [Nat.succ_eq_add_one]
    ring

theorem specPartition_eq (data : List ℕ) (v : ℕ) (e : ECLevel) :
    specPartition data v e =
      (List.range (blockInfo v e).g1n).map
        (fun i => (data.drop (i * (blockInfo v e).g1k)).take (blockInfo v e).g1k) ++
      (List.range (blockInfo v e).g2n).map
        (fun i => (data.drop ((blockInfo v e).g1n * (blockInfo v e).g1k +
          i * (blockInfo v e).g2k)).take (blockInfo v e).g2k) := by
  unfold specPartition
  dsimp only
  rw [specBlocks_eq_map, specBlocks_eq_map]
  congr 1
  refine List.map_congr_left (fun i hi => ?_)
  rw [List.drop_drop, Nat.add_comm]

/-- C6: the source's `interleave` is exactly the sequence described by the
claim (`specInterleave`), and for every payload the bit stream used by
`generateQR` (`codewordStream`) is its MSB-first bit expansion plus
exactly `REM_BITS[version-1]` zero bits (`specFinalStream`). -/
theorem C6_interleaving (data bytes : List ℕ) (v : ℕ) (e : ECLevel) :
    interleave data v e = specInterleave data v e ∧
    codewordStream bytes v e = specFinalStream bytes v e := by
  have hpart : ∀ d : List ℕ, interleave d v e = specInterleave d v e := by
    intro d
    unfold interleave specInterleave
    dsimp only
    rw [specPartition_eq]
  refine ⟨hpart data, ?_⟩
  unfold codewordStream specFinalStream
  dsimp only
  rw [hpart]

/-!
## C7: stream length versus non-reserved cells (a table bug)
-/

set_option maxRecDepth 100000 in
set_option maxHeartbeats 1000000 in
theorem nonReserved_v20 : countNonReserved (buildMatrix 20).2 (buildMatrix 20).1.res = 8683 := by
  decide

theorem sum_map_const_range (n c : ℕ) : ((List.range n).map (fun _ => c)).sum = n * c := by
  induction n with
  | zero => simp
  | succ m ih =>
    rw [List.range_succ, List.map_append, List.sum_append, ih]
    simp [Nat.succ_mul]

theorem sum_map_add_range (n : ℕ) (f g : ℕ → ℕ) :
    ((List.range n).map (fun i => f i + g i)).sum =
      ((List.range n).map f).sum + ((List.range n).map g).sum := by
  induction n with
  | zero => rfl
  | succ m ih =>
    rw [List.range_succ]
    simp only [List.map_append, List.sum_append, ih, List.map_cons, List.map_nil,
      List.sum_cons, List.sum_nil]
    omega

theorem sum_map_ite_lt (m k : ℕ) :
    ((List.range m).map (fun i => if i < k then (1 : ℕ) else 0)).sum = min k m := by
  induction m with
  | zero => simp
  | succ n ih =>
    rw [List.range_succ]
    simp only [List.map_append, List.sum_append, ih, List.map_cons, List.map_nil,
      List.sum_cons, List.sum_nil]
    by_cases h : n < k <;> simp [h] <;> omega

theorem length_filterMap_get (blocks : List (List ℕ)) (i : ℕ) :
    (blocks.filterMap (fun blk => blk.get? i)).length =
      (blocks.map (fun blk => if i < blk.length then (1 : ℕ) else 0)).sum := by
  induction blocks with
  | nil => rfl
  | cons b bs ih =>
    rw [List.filterMap_cons]
    rcases h : b.get? i with _ | x
    · have hle : ¬ i < b.length := Nat.not_lt.mpr (List.get?_eq_none.mp h)
      rw [List.map_cons, List.sum_cons, if_neg hle, ih, Nat.zero_add]
    · have hlt : i < b.length := by
        by_contra hc
        rw [List.get?_eq_none.mpr (by omega)] at h
        cases h
      rw [List.length_cons, List.map_cons, List.sum_cons, if_pos hlt, ih]
      omega

theorem sum_min_length (m : ℕ) (blocks : List (List ℕ)) :
    ((List.range m).map (fun i =>
      (blocks.map (fun blk => if i < blk.length then (1 : ℕ) else 0)).sum)).sum =
      (blocks.map (fun blk => min blk.length m)).sum := by
  induction blocks with
  | nil => simp
  | cons b bs ih =>
    simp only [List.map_cons, List.sum_cons]
    rw [sum_map_add_range m (fun i => if i < b.length then (1 : ℕ) else 0)
      (fun i => (bs.map (fun blk => if i < blk.length then (1 : ℕ) else 0)).sum)]
    rw [ih, sum_map_ite_lt]

theorem flatMap_filterMap_get_length (m : ℕ) (blocks : List (List ℕ)) :
    ((List.range m).flatMap (fun i => blocks.filterMap (fun blk => blk.get? i))).length =
      (blocks.map (fun blk => min blk.length m)).sum := by
  rw [List.length_flatMap]
  simp only [Function.comp_def]
  have h : ∀ i ∈ List.range m,
      (blocks.filterMap (fun blk => blk.get? i)).length =
        (blocks.map (fun blk => if i < blk.length then (1 : ℕ) else 0)).sum :=
    fun i _ => length_filterMap_get blocks i
  rw [List.map_congr_left h, sum_min_length]

theorem flatMap_map_getD_length (m : ℕ) (blocks : List (List ℕ)) :
    ((List.range m).flatMap (fun i => blocks.map (fun blk => blk.getD i 0))).length =
      m * blocks.length := by
  rw [List.length_flatMap]
  simp only [Function.comp_def, List.length_map]
  exact sum_map_const_range m blocks.length

/-- Length of the `interleave` body, generalized over the block counts and
the EC encoder: every data codeword appears once, plus `ecPer` codewords
per block. -/
theorem interleave_core_length (data : List ℕ) (g1n g1k g2n g2k ecPer : ℕ)
    (rs : List ℕ → List ℕ)
    (hlen : data.length = g1n * g1k + g2n * g2k) :
    (((List.range (max g1k g2k)).flatMap (fun i =>
        ((List.range g1n).map (fun j => (data.drop (j * g1k)).take g1k) ++
         (List.range g2n).map (fun j =>
           (data.drop (g1n * g1k + j * g2k)).take g2k)).filterMap
        (fun blk => blk.get? i))) ++
     ((List.range ecPer).flatMap (fun i =>
        (((List.range g1n).map (fun j => (data.drop (j * g1k)).take g1k) ++
          (List.range g2n).map (fun j =>
            (data.drop (g1n * g1k + j * g2k)).take g2k)).map rs).map
        (fun blk => blk.getD i 0)))).length =
      data.length + (g1n + g2n) * ecPer := by
  rw [List.length_append, flatMap_filterMap_get_length, flatMap_map_getD_length,
    List.length_map, List.length_append, List.length_map, List.length_map,
    List.length_range, List.length_range]
  rw [List.map_append, List.sum_append, List.map_map, List.map_map]
  have h1 : ((List.range g1n).map
      ((fun blk : List ℕ => min blk.length (max g1k g2k)) ∘
        (fun j => (data.drop (j * g1k)).take g1k))).sum = g1n * g1k := by
    rw [List.map_congr_left (fun i hi => ?_), sum_map_const_range]
    rw [List.mem_range] at hi
    simp only [Function.comp_apply, List.length_take, List.length_drop]
    have hmul : (i + 1) * g1k ≤ g1n * g1k := Nat.mul_le_mul_right _ (by omega)
    have hge : g1k ≤ data.length - i * g1k := by
      rw [hlen]
      have : (i + 1) * g1k = i * g1k + g1k := by ring
      omega
    rw [Nat.min_eq_left hge, Nat.min_eq_left (Nat.le_max_left _ _)]
  have h2 : ((List.range g2n).map
      ((fun blk : List ℕ => min blk.length (max g1k g2k)) ∘
        (fun j => (data.drop (g1n * g1k + j * g2k)).take g2k))).sum = g2n * g2k := by
    rw [List.map_congr_left (fun i hi => ?_), sum_map_const_range]
    rw [List.mem_range] at hi
    simp only [Function.comp_apply, List.length_take, List.length_drop]
    have hmul : (i + 1) * g2k ≤ g2n * g2k := Nat.mul_le_mul_right _ (by omega)
    have hge : g2k ≤ data.length - (g1n * g1k + i * g2k) := by
      rw [hlen]
      have : (i + 1) * g2k = i * g2k + g2k := by ring
      omega
    rw [Nat.min_eq_left hge, Nat.min_eq_left (Nat.le_max_right _ _)]
  rw [h1, h2, hlen]
  ring

/-- Length of `interleave` on a data list of the exact total data-codeword
count. -/
theorem interleave_length (data : List ℕ) (v : ℕ) (e : ECLevel)
    (hlen : data.length = (blockInfo v e).g1n * (blockInfo v e).g1k +
      (blockInfo v e).g2n * (blockInfo v e).g2k) :
    (interleave data v e).length =
      data.length + ((blockInfo v e).g1n + (blockInfo v e).g2n) * (blockInfo v e).ecPer := by
  unfold interleave
  dsimp only
  exact interleave_core_length data _ _ _ _ _ _ hlen

/-- The bit-stream length of `generateQR` for a fitting payload. -/
theorem codewordStream_length (bytes : List ℕ) (v : ℕ) (e : ECLevel)
    (hfit : needBits v bytes.length ≤ capBits v e) :
    (codewordStream bytes v e).length =
      8 * (capBits v e / 8 +
        ((blockInfo v e).g1n + (blockInfo v e).g2n) * (blockInfo v e).ecPer) +
        REM_BITS.getD (v - 1) 0 := by
  have hcw : (encodeData bytes v e).length = capBits v e / 8 := by
    rw [encodeData_eq_pack_spec, bitsToBytes_length, specDataBits_length bytes v e hfit]
  have hcap : capBits v e =
      ((blockInfo v e).g1n * (blockInfo v e).g1k +
        (blockInfo v e).g2n * (blockInfo v e).g2k) * 8 := rfl
  have hlen : (encodeData bytes v e).length =
      (blockInfo v e).g1n * (blockInfo v e).g1k +
        (blockInfo v e).g2n * (blockInfo v e).g2k := by
    rw [hcw]
    omega
  unfold codewordStream
  dsimp only
  rw [List.length_append, flatMap_pushBits8_length, List.length_replicate,
    interleave_length _ _ _ hlen, hlen]
  omega

/-- C7 (refuted on the code, see `EC_BLOCKS[19][2]`): at the failing input
(482 bytes of 0x41 at level Q), `generateQR` selects version 20, the
interleaved bit stream it places has 8363 bits, but the version-20 matrix
has 8683 non-reserved cells, so 320 non-reserved cells never receive a
stream bit. (The table row lists 28 EC codewords per block; the matrix
capacity requires 30.) -/
theorem C7_stream_length_mismatch :
    (∃ q, generateQR (List.replicate 482 65) ECLevel.Q = some q ∧ q.version = 20) ∧
    (codewordStream (List.replicate 482 65) 20 ECLevel.Q).length = 8363 ∧
    countNonReserved (buildMatrix 20).2 (buildMatrix 20).1.res = 8683 ∧
    (8363 : ℕ) ≠ 8683 := by
  refine ⟨?_, ?_, nonReserved_v20, by omega⟩
  · refine generateQR_some_of ?_ ?_
    · intro hnil
      have h0 := congrArg List.length hnil
      rw [List.length_replicate, List.length_nil] at h0
      omega
    · rw [List.length_replicate]
      decide
  · rw [codewordStream_length _ _ _ (by rw [List.length_replicate]; decide)]
    decide

/-!
## C4: the mask is the least argmin of the trial penalty
-/

/-- The mask-selection fold of `pickMask` (over any number of candidate
masks) returns the first index attaining the minimum of `f`. -/
theorem pickFold_spec (f : ℕ → ℕ) : ∀ n, 1 ≤ n →
    ∃ b, ((List.range n).foldl (fun (best : ℕ × Option ℕ) mask =>
        match best.2 with
        | none => (mask, some (f mask))
        | some bp => if f mask < bp then (mask, some (f mask)) else best)
      (0, none)) = (b, some (f b)) ∧
      b < n ∧ (∀ k, k < n → f b ≤ f k) ∧ (∀ k, k < b → f b < f k) := by
  intro n
  induction n with
  | zero => omega
  | succ m ih =>
    intro _
    by_cases hm : m = 0
    · subst hm
      refine ⟨0, rfl, by omega, fun k hk => ?_, fun k hk => absurd hk (by omega)⟩
      have hk0 : k = 0 := by omega
      subst hk0
      exact le_refl _
    · obtain ⟨b, hfold, hb, hmin, hstrict⟩ := ih (by omega)
      rw [List.range_succ, List.foldl_append, hfold, List.foldl_cons, List.foldl_nil]
      by_cases hlt : f m < f b
      · refine ⟨m, ?_, by omega, ?_, ?_⟩
        · simp [hlt]
        · intro k hk
          rcases Nat.lt_succ_iff_lt_or_eq.mp hk with hk' | rfl
          · exact le_of_lt (lt_of_lt_of_le hlt (hmin k hk'))
          · exact le_refl _
        · intro k hk
          exact lt_of_lt_of_le hlt (hmin k hk)
      · refine ⟨b, ?_, by omega, ?_, hstrict⟩
        · simp [hlt]
        · intro k hk
          rcases Nat.lt_succ_iff_lt_or_eq.mp hk with hk' | rfl
          · exact hmin k hk'
          · omega

/-- The mask chosen by `pickMask` is the least argmin over masks 0..7 of
the penalty of that mask's trial grid. -/
theorem pickMask_argmin (size : ℕ) (m : Matrix) (ecIdx version : ℕ) :
    pickMask size m ecIdx version < 8 ∧
    (∀ mask, mask < 8 →
      calcPenalty size (trialGrid size m ecIdx version (pickMask size m ecIdx version)) ≤
        calcPenalty size (trialGrid size m ecIdx version mask)) ∧
    ∀ mask, mask < pickMask size m ecIdx version →
      calcPenalty size (trialGrid size m ecIdx version (pickMask size m ecIdx version)) <
        calcPenalty size (trialGrid size m ecIdx version mask) := by
  obtain ⟨b, hfold, hb, hmin, hstrict⟩ :=
    pickFold_spec (fun mask => calcPenalty size (trialGrid size m ecIdx version mask)) 8
      (by omega)
  have hpick : pickMask size m ecIdx version = b := by
    unfold pickMask
    exact congrArg Prod.fst hfold
  rw [hpick]
  exact ⟨hb, hmin, hstrict⟩

/-- The score mask `mask` gets in the selection loop of `generateQR`: the
penalty of the fresh trial copy (data-placed grid, this mask XOR-applied
to non-reserved cells, tentative format info for this mask, tentative
version info when `7 ≤ v`). -/
def maskPenalty (bytes : List ℕ) (e : ECLevel) (v mask : ℕ) : ℕ :=
  calcPenalty (buildMatrix v).2
    (trialGrid (buildMatrix v).2
      (placeData (buildMatrix v).2 (buildMatrix v).1 (codewordStream bytes v e))
      (EC_IDX e) v mask)

/-- C4: for every accepted input, the returned grid is exactly one trial
composition (mask, format info, version info) applied to the pristine
data-placed grid at some mask index `best < 8`, and `best` is the argmin
of the trial penalty over masks 0..7, with ties broken toward the lower
index (`best` scores strictly below every earlier mask). -/
theorem C4_mask_argmin (bytes : List ℕ) (e : ECLevel) (q : QRCode)
    (h : generateQR bytes e = some q) :
    ∃ best, best < 8 ∧
      q.modules = decodeGrid (buildMatrix q.version).2
        (trialGrid (buildMatrix q.version).2
          (placeData (buildMatrix q.version).2 (buildMatrix q.version).1
            (codewordStream bytes q.version e)) (EC_IDX e) q.version best) ∧
      (∀ mask, mask < 8 →
        maskPenalty bytes e q.version best ≤ maskPenalty bytes e q.version mask) ∧
      ∀ mask, mask < best →
        maskPenalty bytes e q.version best < maskPenalty bytes e q.version mask := by
  rcases generateQR_eq_some h with ⟨hne, v, h1, h2, h3, rfl⟩
  obtain ⟨hb, hmin, hstrict⟩ := pickMask_argmin (buildMatrix v).2
    (placeData (buildMatrix v).2 (buildMatrix v).1 (codewordStream bytes v e)) (EC_IDX e) v
  exact ⟨pickMask (buildMatrix v).2
      (placeData (buildMatrix v).2 (buildMatrix v).1 (codewordStream bytes v e)) (EC_IDX e) v,
    hb, rfl, fun mask hm => hmin mask hm, fun mask hm => hstrict mask hm⟩

/-- Witness for C4 at the one-byte payload `[49]` at level L. -/
theorem C4_mask_argmin_witness :
    ∃ q, generateQR [49] ECLevel.L = some q ∧
      ∃ best, best < 8 ∧
        q.modules = decodeGrid (buildMatrix q.version).2
          (trialGrid (buildMatrix q.version).2
            (placeData (buildMatrix q.version).2 (buildMatrix q.version).1
              (codewordStream [49] q.version ECLevel.L)) (EC_IDX ECLevel.L) q.version best) ∧
        (∀ mask, mask < 8 →
          maskPenalty [49] ECLevel.L q.version best ≤
            maskPenalty [49] ECLevel.L q.version mask) ∧
        ∀ mask, mask < best →
          maskPenalty [49] ECLevel.L q.version best <
            maskPenalty [49] ECLevel.L q.version mask := by
  cases hq : generateQR [49] ECLevel.L with
  | none =>
    have hs : (generateQR [49] ECLevel.L).isSome = true := rfl
    rw [hq] at hs
    cases hs
  | some q => exact ⟨q, rfl, C4_mask_argmin [49] ECLevel.L q hq⟩

/-!
## C10: timing alternation in the final output
-/

/-- A property preserved by every step of a fold is preserved by the
fold. -/
theorem foldl_preserve (f : β → α → β) (P : β → Prop) (l : List α)
    (hstep : ∀ b, ∀ x ∈ l, P b → P (f b x)) :
    ∀ b, P b → P (l.foldl f b) := by
  induction l with
  | nil => intro b h; exact h
  | cons x xs ih =>
    intro b h
    rw [List.foldl_cons]
    exact ih (fun b' y hy hb' => hstep b' y (List.mem_cons_of_mem x hy) hb')
      _ (hstep b x (List.mem_cons_self x xs) h)

/-- A paired module/reservation write keeps the invariant `reserved (tr,tc)
implies module value b` when it either misses `(tr, tc)` or writes `b`. -/
theorem cellOK_write {size tr tc r c : ℕ} {d b : Bool} {gm gr : ℕ}
    (hcase : (r ≠ tr ∨ c ≠ tc) ∨ d = b)
    (h : bitGet size gr tr tc = true → bitGet size gm tr tc = b) :
    bitGet size (bitSet size gr r c true) tr tc = true →
      bitGet size (bitSet size gm r c d) tr tc = b := by
  rcases hcase with hne | rfl
  · rw [bitGet_bitSet_ne _ hne, bitGet_bitSet_ne _ hne]
    exact h
  · by_cases heq : r = tr ∧ c = tc
    · rcases heq with ⟨rfl, rfl⟩
      intro htrue
      by_cases hin : r < size ∧ c < size
      · exact bitGet_bitSet_eq d hin.1 hin.2
      · rw [bitGet_oob hin] at htrue
        cases htrue
    · have hne : r ≠ tr ∨ c ≠ tc := by tauto
      rw [bitGet_bitSet_ne _ hne, bitGet_bitSet_ne _ hne]
      exact h

/-- `placeFinder` leaves every cell outside its 9×9 box (pattern plus
separator) unchanged. -/
theorem placeFinder_get (size r0 c0 tr tc : ℕ) (m : Matrix)
    (hne : ∀ r c : ℕ, (r0 : Int) - 1 ≤ r → (r : Int) ≤ r0 + 7 →
      (c0 : Int) - 1 ≤ c → (c : Int) ≤ c0 + 7 → r ≠ tr ∨ c ≠ tc) :
    bitGet size (placeFinder size m r0 c0).mod tr tc = bitGet size m.mod tr tc ∧
    bitGet size (placeFinder size m r0 c0).res tr tc = bitGet size m.res tr tc := by
  unfold placeFinder
  simp only [foldlMat_eq_foldl]
  refine foldl_preserve _ (fun m' =>
    bitGet size m'.mod tr tc = bitGet size m.mod tr tc ∧
    bitGet size m'.res tr tc = bitGet size m.res tr tc) _ ?_ m ⟨rfl, rfl⟩
  intro m1 x hx hP
  rw [List.mem_range] at hx
  refine foldl_preserve _ (fun m' =>
    bitGet size m'.mod tr tc = bitGet size m.mod tr tc ∧
    bitGet size m'.res tr tc = bitGet size m.res tr tc) _ ?_ m1 hP
  intro m2 j hj hP2
  rw [List.mem_range] at hj
  dsimp only
  split
  · exact hP2
  · rename_i hguard
    push_neg at hguard
    obtain ⟨hg1, hg2, hg3, hg4⟩ := hguard
    have hxne := hne ((r0 : Int) + ((x : Int) - 1)).toNat ((c0 : Int) + ((j : Int) - 1)).toNat
      (by omega) (by omega) (by omega) (by omega)
    constructor
    · rw [bitGet_bitSet_ne _ hxne]
      exact hP2.1
    · rw [bitGet_bitSet_ne _ hxne]
      exact hP2.2

/-- `placeAlign` keeps the invariant `reserved (tr,tc) implies module b`
when every write of its 5×5 box either misses `(tr, tc)` or writes `b`. -/
theorem placeAlign_cellOK {size rr cc tr tc : ℕ} {b : Bool} (m : Matrix)
    (hcond : ∀ i j : ℕ, i < 5 → j < 5 →
      ((((rr : Int) + ((i : Int) - 2)).toNat ≠ tr ∨
        ((cc : Int) + ((j : Int) - 2)).toNat ≠ tc) ∨
        decide (((i : Int) - 2).natAbs = 2 ∨ ((j : Int) - 2).natAbs = 2 ∨
          ((i : Int) - 2 = 0 ∧ (j : Int) - 2 = 0)) = b))
    (h : bitGet size m.res tr tc = true → bitGet size m.mod tr tc = b) :
    bitGet size (placeAlign size m rr cc).res tr tc = true →
      bitGet size (placeAlign size m rr cc).mod tr tc = b := by
  unfold placeAlign
  simp only [foldlMat_eq_foldl]
  refine foldl_preserve _ (fun m' =>
    bitGet size m'.res tr tc = true → bitGet size m'.mod tr tc = b) _ ?_ m h
  intro m1 i hi hP
  rw [List.mem_range] at hi
  refine foldl_preserve _ (fun m' =>
    bitGet size m'.res tr tc = true → bitGet size m'.mod tr tc = b) _ ?_ m1 hP
  intro m2 j hj hP2
  rw [List.mem_range] at hj
  dsimp only
  exact cellOK_write (hcond i j hi hj) hP2

/-- `reserveFormat` only adds reservations. -/
theorem reserveFormat_true {size res tr tc : ℕ}
    (h : bitGet size res tr tc = true) :
    bitGet size (reserveFormat size res) tr tc = true := by
  unfold reserveFormat
  simp only [foldlNat_eq_foldl]
  refine foldl_preserve _ (fun g => bitGet size g tr tc = true) _
    (fun g x _ hg => bitGet_bitSet_true_of_true hg) _ ?_
  refine foldl_preserve _ (fun g => bitGet size g tr tc = true) _
    (fun g x _ hg => bitGet_bitSet_true_of_true hg) _ ?_
  exact foldl_preserve _ (fun g => bitGet size g tr tc = true) _
    (fun g x _ hg => bitGet_bitSet_true_of_true (bitGet_bitSet_true_of_true hg)) _ h

/-- `reserveVersion` only adds reservations. -/
theorem reserveVersion_true {size res tr tc : ℕ}
    (h : bitGet size res tr tc = true) :
    bitGet size (reserveVersion size res) tr tc = true := by
  unfold reserveVersion
  simp only [foldlNat_eq_foldl]
  refine foldl_preserve _ (fun g => bitGet size g tr tc = true) _
    (fun g x _ hg => ?_) _ h
  dsimp only
  exact bitGet_bitSet_true_of_true (bitGet_bitSet_true_of_true hg)

/-- Every alignment centre coordinate is even, and is either 6 or at
least 18. -/
theorem alignPos_facts :
    ∀ vi, vi < 40 → ∀ p ∈ ALIGN_POS.getD vi [], p % 2 = 0 ∧ (p = 6 ∨ 18 ≤ p) := by
  decide

/-- `timingStep` at index `j` only writes `(6, j)` and `(j, 6)`. -/
theorem timingStep_other (size : ℕ) {j tr tc : ℕ} {m : Matrix}
    (hne1 : (6 : ℕ) ≠ tr ∨ j ≠ tc) (hne2 : j ≠ tr ∨ (6 : ℕ) ≠ tc) :
    bitGet size (timingStep size m j).res tr tc = bitGet size m.res tr tc ∧
    bitGet size (timingStep size m j).mod tr tc = bitGet size m.mod tr tc := by
  unfold timingStep
  dsimp only
  by_cases h1 : bitGet size m.res 6 j = true
  · rw [if_pos h1]
    by_cases h2 : bitGet size m.res j 6 = true
    · rw [if_pos h2]
      exact ⟨rfl, rfl⟩
    · rw [if_neg h2]
      exact ⟨bitGet_bitSet_ne _ hne2, bitGet_bitSet_ne _ hne2⟩
  · rw [if_neg h1]
    dsimp only
    by_cases h2 : bitGet size (bitSet size m.res 6 j true) j 6 = true
    · rw [if_pos h2]
      exact ⟨bitGet_bitSet_ne _ hne1, bitGet_bitSet_ne _ hne1⟩
    · rw [if_neg h2]
      constructor
      · rw [bitGet_bitSet_ne _ hne2, bitGet_bitSet_ne _ hne1]
      · rw [bitGet_bitSet_ne _ hne2, bitGet_bitSet_ne _ hne1]

/-- `timingStep` at index `i` establishes the timing value at `(6, i)` and
`(i, 6)`, given that any prior reservation of those cells already carries
the timing value. -/
theorem timingStep_self (size : ℕ) {i : ℕ} {m : Matrix}
    (h6s : 6 < size) (his : i < size) (hne : i ≠ 6)
    (hA : bitGet size m.res 6 i = true → bitGet size m.mod 6 i = decide (i % 2 = 0))
    (hB : bitGet size m.res i 6 = true → bitGet size m.mod i 6 = decide (i % 2 = 0)) :
    ((bitGet size (timingStep size m i).res 6 i = true ∧
      bitGet size (timingStep size m i).mod 6 i = decide (i % 2 = 0)) ∧
     (bitGet size (timingStep size m i).res i 6 = true ∧
      bitGet size (timingStep size m i).mod i 6 = decide (i % 2 = 0))) := by
  have hneA : i ≠ 6 ∨ (6 : ℕ) ≠ i := Or.inl hne
  have hneB : (6 : ℕ) ≠ i ∨ i ≠ 6 := Or.inr hne
  unfold timingStep
  dsimp only
  by_cases h1 : bitGet size m.res 6 i = true
  · rw [if_pos h1]
    by_cases h2 : bitGet size m.res i 6 = true
    · rw [if_pos h2]
      exact ⟨⟨h1, hA h1⟩, ⟨h2, hB h2⟩⟩
    · rw [if_neg h2]
      refine ⟨⟨?_, ?_⟩, ⟨?_, ?_⟩⟩
      · rw [bitGet_bitSet_ne _ hneA]; exact h1
      · rw [bitGet_bitSet_ne _ hneA]; exact hA h1
      · exact bitGet_bitSet_eq _ his h6s
      · exact bitGet_bitSet_eq _ his h6s
  · rw [if_neg h1]
    dsimp only
    by_cases h2 : bitGet size (bitSet size m.res 6 i true) i 6 = true
    · rw [if_pos h2]
      have h2' : bitGet size m.res i 6 = true := by
        rw [bitGet_bitSet_ne _ hneB] at h2
        exact h2
      refine ⟨⟨?_, ?_⟩, ⟨?_, ?_⟩⟩
      · exact bitGet_bitSet_eq _ h6s his
      · exact bitGet_bitSet_eq _ h6s his
      · rw [bitGet_bitSet_ne _ hneB]; exact h2'
      · rw [bitGet_bitSet_ne _ hneB]; exact hB h2'
    · rw [if_neg h2]
      refine ⟨⟨?_, ?_⟩, ⟨?_, ?_⟩⟩
      · rw [bitGet_bitSet_ne _ hneA]; exact bitGet_bitSet_eq _ h6s his
      · rw [bitGet_bitSet_ne _ hneA]; exact bitGet_bitSet_eq _ h6s his
      · exact bitGet_bitSet_eq _ his h6s
      · exact bitGet_bitSet_eq _ his h6s

/-- The timing loop of `buildMatrix` leaves `(6, i)` and `(i, 6)` reserved
and carrying the alternating value, for every `i` in its range, provided
prior reservations of those cells already carry that value. -/
theorem timing_fold_cell {size i : ℕ} {m4 : Matrix}
    (hs : 21 ≤ size) (h8 : 8 ≤ i) (h9 : i ≤ size - 9)
    (hA : bitGet size m4.res 6 i = true → bitGet size m4.mod 6 i = decide (i % 2 = 0))
    (hB : bitGet size m4.res i 6 = true → bitGet size m4.mod i 6 = decide (i % 2 = 0)) :
    ((bitGet size (foldlMat (timingStep size) m4 (List.range' 8 (size - 16))).res 6 i = true ∧
      bitGet size (foldlMat (timingStep size) m4 (List.range' 8 (size - 16))).mod 6 i =
        decide (i % 2 = 0)) ∧
     (bitGet size (foldlMat (timingStep size) m4 (List.range' 8 (size - 16))).res i 6 = true ∧
      bitGet size (foldlMat (timingStep size) m4 (List.range' 8 (size - 16))).mod i 6 =
        decide (i % 2 = 0))) := by
  rw [foldlMat_eq_foldl]
  have hsplit : List.range' 8 (size - 16) =
      List.range' 8 (i - 8) ++ i :: List.range' (i + 1) (size - 9 - i) := by
    have h1 : size - 16 = ((size - 9 - i) + 1) + (i - 8) := by omega
    have h2 : 8 + 1 * (i - 8) = i := by omega
    rw [h1, ← List.range'_append, h2, List.range'_succ]
  rw [hsplit, List.foldl_append, List.foldl_cons]
  have hphase1 : (bitGet size ((List.range' 8 (i - 8)).foldl (timingStep size) m4).res 6 i =
        true → bitGet size ((List.range' 8 (i - 8)).foldl (timingStep size) m4).mod 6 i =
        decide (i % 2 = 0)) ∧
      (bitGet size ((List.range' 8 (i - 8)).foldl (timingStep size) m4).res i 6 = true →
        bitGet size ((List.range' 8 (i - 8)).foldl (timingStep size) m4).mod i 6 =
        decide (i % 2 = 0)) := by
    refine foldl_preserve (timingStep size) (fun m' =>
      (bitGet size m'.res 6 i = true → bitGet size m'.mod 6 i = decide (i % 2 = 0)) ∧
      (bitGet size m'.res i 6 = true → bitGet size m'.mod i 6 = decide (i % 2 = 0))) _
      ?_ m4 ⟨hA, hB⟩
    intro m' j hj hP
    rw [List.mem_range'_1] at hj
    obtain ⟨hj1, hj2⟩ := hj
    have hj3 : j < i := by omega
    have hoA := timingStep_other size (m := m')
      (Or.inr (by omega) : (6 : ℕ) ≠ 6 ∨ j ≠ i) (Or.inl (by omega) : j ≠ 6 ∨ (6 : ℕ) ≠ i)
    have hoB := timingStep_other size (m := m')
      (Or.inl (by omega) : (6 : ℕ) ≠ i ∨ j ≠ 6) (Or.inl (by omega) : j ≠ i ∨ (6 : ℕ) ≠ 6)
    constructor
    · rw [hoA.1, hoA.2]; exact hP.1
    · rw [hoB.1, hoB.2]; exact hP.2
  have hstep := timingStep_self size
    (m := (List.range' 8 (i - 8)).foldl (timingStep size) m4)
    (by omega) (by omega) (by omega) hphase1.1 hphase1.2
  refine foldl_preserve (timingStep size) (fun m' =>
    ((bitGet size m'.res 6 i = true ∧ bitGet size m'.mod 6 i = decide (i % 2 = 0)) ∧
     (bitGet size m'.res i 6 = true ∧ bitGet size m'.mod i 6 = decide (i % 2 = 0)))) _
    ?_ _ hstep
  intro m' j hj hP
  rw [List.mem_range'_1] at hj
  obtain ⟨hj1, hj2⟩ := hj
  have hj3 : i < j := by omega
  have hoA := timingStep_other size (m := m')
    (Or.inr (by omega) : (6 : ℕ) ≠ 6 ∨ j ≠ i) (Or.inl (by omega) : j ≠ 6 ∨ (6 : ℕ) ≠ i)
  have hoB := timingStep_other size (m := m')
    (Or.inl (by omega) : (6 : ℕ) ≠ i ∨ j ≠ 6) (Or.inl (by omega) : j ≠ i ∨ (6 : ℕ) ≠ 6)
  exact ⟨⟨by rw [hoA.1]; exact hP.1.1, by rw [hoA.2]; exact hP.1.2⟩,
         ⟨by rw [hoB.1]; exact hP.2.1, by rw [hoB.2]; exact hP.2.2⟩⟩

/-- The alignment-pattern stage of `buildMatrix` keeps the timing-cell
invariant: every module it writes on row 6 or column 6 carries the
alternating value, because every centre coordinate is even and centres
near the timing lines sit exactly on them. -/
theorem alignStage_cellOK {size i : ℕ} {m3 : Matrix} {pos : List ℕ}
    (hpos : ∀ p ∈ pos, p % 2 = 0 ∧ (p = 6 ∨ 18 ≤ p))
    (h8 : 8 ≤ i)
    (hA : bitGet size m3.res 6 i = true → bitGet size m3.mod 6 i = decide (i % 2 = 0))
    (hB : bitGet size m3.res i 6 = true → bitGet size m3.mod i 6 = decide (i % 2 = 0)) :
    (bitGet size (foldlMat (fun mr r =>
        foldlMat (fun mc c =>
          if (r ≤ 8 ∧ c ≤ 8) ∨ (r ≤ 8 ∧ size - 8 ≤ c) ∨ (size - 8 ≤ r ∧ c ≤ 8)
          then mc
          else placeAlign size mc r c) mr pos) m3 pos).res 6 i = true →
      bitGet size (foldlMat (fun mr r =>
        foldlMat (fun mc c =>
          if (r ≤ 8 ∧ c ≤ 8) ∨ (r ≤ 8 ∧ size - 8 ≤ c) ∨ (size - 8 ≤ r ∧ c ≤ 8)
          then mc
          else placeAlign size mc r c) mr pos) m3 pos).mod 6 i =
        decide (i % 2 = 0)) ∧
    (bitGet size (foldlMat (fun mr r =>
        foldlMat (fun mc c =>
          if (r ≤ 8 ∧ c ≤ 8) ∨ (r ≤ 8 ∧ size - 8 ≤ c) ∨ (size - 8 ≤ r ∧ c ≤ 8)
          then mc
          else placeAlign size mc r c) mr pos) m3 pos).res i 6 = true →
      bitGet size (foldlMat (fun mr r =>
        foldlMat (fun mc c =>
          if (r ≤ 8 ∧ c ≤ 8) ∨ (r ≤ 8 ∧ size - 8 ≤ c) ∨ (size - 8 ≤ r ∧ c ≤ 8)
          then mc
          else placeAlign size mc r c) mr pos) m3 pos).mod i 6 =
        decide (i % 2 = 0)) := by
  simp only [foldlMat_eq_foldl]
  refine foldl_preserve (fun mr r =>
    List.foldl (fun mc c =>
      if (r ≤ 8 ∧ c ≤ 8) ∨ (r ≤ 8 ∧ size - 8 ≤ c) ∨ (size - 8 ≤ r ∧ c ≤ 8)
      then mc
      else placeAlign size mc r c) mr pos) (fun m' =>
    (bitGet size m'.res 6 i = true → bitGet size m'.mod 6 i = decide (i % 2 = 0)) ∧
    (bitGet size m'.res i 6 = true → bitGet size m'.mod i 6 = decide (i % 2 = 0))) pos
    ?_ m3 ⟨hA, hB⟩
  intro m' r hr hP
  refine foldl_preserve (fun mc c =>
    if (r ≤ 8 ∧ c ≤ 8) ∨ (r ≤ 8 ∧ size - 8 ≤ c) ∨ (size - 8 ≤ r ∧ c ≤ 8)
    then mc
    else placeAlign size mc r c) (fun m' =>
    (bitGet size m'.res 6 i = true → bitGet size m'.mod 6 i = decide (i % 2 = 0)) ∧
    (bitGet size m'.res i 6 = true → bitGet size m'.mod i 6 = decide (i % 2 = 0))) pos
    ?_ m' hP
  intro m'' c hc hP2
  dsimp only
  split
  · exact hP2
  · obtain ⟨hre, hr618⟩ := hpos r hr
    obtain ⟨hce, hc618⟩ := hpos c hc
    constructor
    · refine placeAlign_cellOK m'' ?_ hP2.1
      intro di dj hdi hdj
      rcases hr618 with hr6 | hr18
      · subst hr6
        by_cases hhit : ((c : Int) + ((dj : Int) - 2)).toNat = i
        · by_cases hdi2 : di = 2
          · subst hdi2
            right
            interval_cases dj <;>
              first
                | (rw [show i % 2 = 0 from by omega]; decide)
                | (rw [show i % 2 = 1 from by omega]; decide)
          · left; left; omega
        · left; right; exact hhit
      · left; left; omega
    · refine placeAlign_cellOK m'' ?_ hP2.2
      intro di dj hdi hdj
      rcases hc618 with hc6 | hc18
      · subst hc6
        by_cases hhit : ((r : Int) + ((di : Int) - 2)).toNat = i
        · by_cases hdj2 : dj = 2
          · subst hdj2
            right
            interval_cases di <;>
              first
                | (rw [show i % 2 = 0 from by omega]; decide)
                | (rw [show i % 2 = 1 from by omega]; decide)
          · left; right; omega
        · left; left; exact hhit
      · left; right; omega

theorem bitGet_zero {size r c : ℕ} : bitGet size 0 r c = false := by
  simp [bitGet, Nat.zero_testBit]

/-- The dark module and the format/version reservation stages of
`buildMatrix` keep the timing cells intact. -/
theorem endStages {size v i : ℕ} {m5 : Matrix}
    (hs : 21 ≤ size)
    (h : ((bitGet size m5.res 6 i = true ∧ bitGet size m5.mod 6 i = decide (i % 2 = 0)) ∧
          (bitGet size m5.res i 6 = true ∧ bitGet size m5.mod i 6 = decide (i % 2 = 0)))) :
    ((bitGet size (if 7 ≤ v then
        (⟨bitSet size m5.mod (size - 8) 8 true,
          reserveVersion size (reserveFormat size (bitSet size m5.res (size - 8) 8 true))⟩ :
          Matrix)
      else
        ⟨bitSet size m5.mod (size - 8) 8 true,
          reserveFormat size (bitSet size m5.res (size - 8) 8 true)⟩).res 6 i = true ∧
      bitGet size (if 7 ≤ v then
        (⟨bitSet size m5.mod (size - 8) 8 true,
          reserveVersion size (reserveFormat size (bitSet size m5.res (size - 8) 8 true))⟩ :
          Matrix)
      else
        ⟨bitSet size m5.mod (size - 8) 8 true,
          reserveFormat size (bitSet size m5.res (size - 8) 8 true)⟩).mod 6 i =
        decide (i % 2 = 0)) ∧
     (bitGet size (if 7 ≤ v then
        (⟨bitSet size m5.mod (size - 8) 8 true,
          reserveVersion size (reserveFormat size (bitSet size m5.res (size - 8) 8 true))⟩ :
          Matrix)
      else
        ⟨bitSet size m5.mod (size - 8) 8 true,
          reserveFormat size (bitSet size m5.res (size - 8) 8 true)⟩).res i 6 = true ∧
      bitGet size (if 7 ≤ v then
        (⟨bitSet size m5.mod (size - 8) 8 true,
          reserveVersion size (reserveFormat size (bitSet size m5.res (size - 8) 8 true))⟩ :
          Matrix)
      else
        ⟨bitSet size m5.mod (size - 8) 8 true,
          reserveFormat size (bitSet size m5.res (size - 8) 8 true)⟩).mod i 6 =
        decide (i % 2 = 0))) := by
  have hneA : size - 8 ≠ 6 ∨ (8 : ℕ) ≠ i := Or.inl (by omega)
  have hneB : size - 8 ≠ i ∨ (8 : ℕ) ≠ 6 := Or.inr (by omega)
  have hres1 : bitGet size (bitSet size m5.res (size - 8) 8 true) 6 i = true := by
    rw [bitGet_bitSet_ne _ hneA]; exact h.1.1
  have hres2 : bitGet size (bitSet size m5.res (size - 8) 8 true) i 6 = true := by
    rw [bitGet_bitSet_ne _ hneB]; exact h.2.1
  have hmod1 : bitGet size (bitSet size m5.mod (size - 8) 8 true) 6 i =
      decide (i % 2 = 0) := by
    rw [bitGet_bitSet_ne _ hneA]; exact h.1.2
  have hmod2 : bitGet size (bitSet size m5.mod (size - 8) 8 true) i 6 =
      decide (i % 2 = 0) := by
    rw [bitGet_bitSet_ne _ hneB]; exact h.2.2
  by_cases hv7 : 7 ≤ v
  · rw [if_pos hv7]
    exact ⟨⟨reserveVersion_true (reserveFormat_true hres1), hmod1⟩,
           ⟨reserveVersion_true (reserveFormat_true hres2), hmod2⟩⟩
  · rw [if_neg hv7]
    exact ⟨⟨reserveFormat_true hres1, hmod1⟩, ⟨reserveFormat_true hres2, hmod2⟩⟩

/-- After `buildMatrix`, each timing-line cell `(6, i)` and `(i, 6)` with
`8 ≤ i ≤ size - 9` is reserved and dark exactly when `i` is even. -/
theorem buildMatrix_timing (v i : ℕ) (hv1 : 1 ≤ v)
    (hi8 : 8 ≤ i) (hi9 : i ≤ v * 4 + 17 - 9)
    (hpos : ∀ p ∈ ALIGN_POS.getD (v - 1) [], p % 2 = 0 ∧ (p = 6 ∨ 18 ≤ p)) :
    ((bitGet (v * 4 + 17) (buildMatrix v).1.res 6 i = true ∧
      bitGet (v * 4 + 17) (buildMatrix v).1.mod 6 i = decide (i % 2 = 0)) ∧
     (bitGet (v * 4 + 17) (buildMatrix v).1.res i 6 = true ∧
      bitGet (v * 4 + 17) (buildMatrix v).1.mod i 6 = decide (i % 2 = 0))) := by
  have hs : 21 ≤ v * 4 + 17 := by omega
  have hf1A := placeFinder_get (v * 4 + 17) 0 0 6 i
    (⟨0, 0⟩ : Matrix) (fun r c h1 h2 h3 h4 => by omega)
  have hf2A := placeFinder_get (v * 4 + 17) 0 (v * 4 + 17 - 7) 6 i
    (placeFinder (v * 4 + 17) (⟨0, 0⟩ : Matrix) 0 0) (fun r c h1 h2 h3 h4 => by omega)
  have hf3A := placeFinder_get (v * 4 + 17) (v * 4 + 17 - 7) 0 6 i
    (placeFinder (v * 4 + 17) (placeFinder (v * 4 + 17) (⟨0, 0⟩ : Matrix) 0 0) 0
      (v * 4 + 17 - 7)) (fun r c h1 h2 h3 h4 => by omega)
  have hf1B := placeFinder_get (v * 4 + 17) 0 0 i 6
    (⟨0, 0⟩ : Matrix) (fun r c h1 h2 h3 h4 => by omega)
  have hf2B := placeFinder_get (v * 4 + 17) 0 (v * 4 + 17 - 7) i 6
    (placeFinder (v * 4 + 17) (⟨0, 0⟩ : Matrix) 0 0) (fun r c h1 h2 h3 h4 => by omega)
  have hf3B := placeFinder_get (v * 4 + 17) (v * 4 + 17 - 7) 0 i 6
    (placeFinder (v * 4 + 17) (placeFinder (v * 4 + 17) (⟨0, 0⟩ : Matrix) 0 0) 0
      (v * 4 + 17 - 7)) (fun r c h1 h2 h3 h4 => by omega)
  have hA3 : bitGet (v * 4 + 17) (placeFinder (v * 4 + 17) (placeFinder (v * 4 + 17)
      (placeFinder (v * 4 + 17) (⟨0, 0⟩ : Matrix) 0 0) 0 (v * 4 + 17 - 7))
      (v * 4 + 17 - 7) 0).res 6 i = true →
      bitGet (v * 4 + 17) (placeFinder (v * 4 + 17) (placeFinder (v * 4 + 17)
      (placeFinder (v * 4 + 17) (⟨0, 0⟩ : Matrix) 0 0) 0 (v * 4 + 17 - 7))
      (v * 4 + 17 - 7) 0).mod 6 i = decide (i % 2 = 0) := by
    intro hcontra
    rw [hf3A.2, hf2A.2, hf1A.2] at hcontra
    rw [show bitGet (v * 4 + 17) (Matrix.mk 0 0).res 6 i = false from bitGet_zero] at hcontra
    cases hcontra
  have hB3 : bitGet (v * 4 + 17) (placeFinder (v * 4 + 17) (placeFinder (v * 4 + 17)
      (placeFinder (v * 4 + 17) (⟨0, 0⟩ : Matrix) 0 0) 0 (v * 4 + 17 - 7))
      (v * 4 + 17 - 7) 0).res i 6 = true →
      bitGet (v * 4 + 17) (placeFinder (v * 4 + 17) (placeFinder (v * 4 + 17)
      (placeFinder (v * 4 + 17) (⟨0, 0⟩ : Matrix) 0 0) 0 (v * 4 + 17 - 7))
      (v * 4 + 17 - 7) 0).mod i 6 = decide (i % 2 = 0) := by
    intro hcontra
    rw [hf3B.2, hf2B.2, hf1B.2] at hcontra
    rw [show bitGet (v * 4 + 17) (Matrix.mk 0 0).res i 6 = false from bitGet_zero] at hcontra
    cases hcontra
  unfold buildMatrix
  dsimp only
  by_cases hv2 : 2 ≤ v
  · rw [if_pos hv2]
    have h4 := alignStage_cellOK hpos hi8 hA3 hB3
    have h5 := timing_fold_cell hs hi8 hi9 h4.1 h4.2
    exact endStages hs h5
  · rw [if_neg hv2]
    have h5 := timing_fold_cell hs hi8 hi9 hA3 hB3
    exact endStages hs h5

/-- `placeData` never writes a reserved cell, so reserved cells keep their
module value and the reservation grid is untouched. -/
theorem placeData_preserve {size tr tc : ℕ} {b : Bool} {m : Matrix} (bits : List Bool)
    (h : bitGet size m.res tr tc = true ∧ bitGet size m.mod tr tc = b) :
    bitGet size (placeData size m bits).res tr tc = true ∧
      bitGet size (placeData size m bits).mod tr tc = b := by
  unfold placeData
  simp only [foldlPD_eq_foldl]
  refine foldl_preserve _ (fun st : (Matrix × ℕ) × Bool =>
    bitGet size st.1.1.res tr tc = true ∧ bitGet size st.1.1.mod tr tc = b) _
    ?_ ((m, 0), true) h
  intro st right _ hP
  dsimp only
  refine foldl_preserve _ (fun st2 : Matrix × ℕ =>
    bitGet size st2.1.res tr tc = true ∧ bitGet size st2.1.mod tr tc = b) _
    ?_ st.1 hP
  intro st2 vrow _ hP2
  refine foldl_preserve _ (fun st3 : Matrix × ℕ =>
    bitGet size st3.1.res tr tc = true ∧ bitGet size st3.1.mod tr tc = b) _
    ?_ st2 hP2
  intro st3 j _ hP3
  dsimp only
  split <;> split <;>
    first
      | exact hP3
      | (rename_i hg
         dsimp only
         refine ⟨hP3.1, ?_⟩
         rw [bitGet_bitSet_ne]
         · exact hP3.2
         · by_contra hcon
           push_neg at hcon
           rw [hcon.1, hcon.2, hP3.1] at hg
           exact hg rfl)

/-- `applyMask` flips only non-reserved cells. -/
theorem applyMask_preserve {size modg res mask tr tc : ℕ}
    (hres : bitGet size res tr tc = true) :
    bitGet size (applyMask size modg res mask) tr tc = bitGet size modg tr tc := by
  unfold applyMask
  simp only [foldlNat_eq_foldl]
  refine foldl_preserve _ (fun g => bitGet size g tr tc = bitGet size modg tr tc) _
    ?_ modg rfl
  intro g r _ hP
  refine foldl_preserve _ (fun g => bitGet size g tr tc = bitGet size modg tr tc) _
    ?_ g hP
  intro g2 c _ hP2
  dsimp only
  split
  · rename_i hguard
    by_cases heq : r = tr ∧ c = tc
    · rw [heq.1, heq.2, hres] at hguard
      simp at hguard
    · rw [bitGet_bitSet_ne _ (by tauto)]
      exact hP2
  · exact hP2

/-- `writeFormatInfo` never writes the timing cells `(6, i)` and `(i, 6)`
for `8 ≤ i ≤ size - 9`. -/
theorem writeFormatInfo_timing {size : ℕ} (g ecIdx mask : ℕ) {i : ℕ} (hs : 21 ≤ size)
    (h8 : 8 ≤ i) (h9 : i ≤ size - 9) :
    bitGet size (writeFormatInfo size g ecIdx mask) 6 i = bitGet size g 6 i ∧
    bitGet size (writeFormatInfo size g ecIdx mask) i 6 = bitGet size g i 6 := by
  unfold writeFormatInfo
  have hmain : ∀ g' : ℕ,
      (bitGet size g' 6 i = bitGet size g 6 i ∧ bitGet size g' i 6 = bitGet size g i 6) →
      (bitGet size ((List.range 15).foldl (fun g' k =>
        let dark := (formatInfoWord ecIdx mask).testBit k
        let g'' :=
          if k < 6 then bitSet size g' k 8 dark
          else if k < 8 then bitSet size g' (k + 1) 8 dark
          else bitSet size g' (size - 15 + k) 8 dark
        if k < 8 then bitSet size g'' 8 (size - 1 - k) dark
        else if k < 9 then bitSet size g'' 8 (15 - k - 1 + 1) dark
        else bitSet size g'' 8 (15 - k - 1) dark) g') 6 i = bitGet size g 6 i ∧
       bitGet size ((List.range 15).foldl (fun g' k =>
        let dark := (formatInfoWord ecIdx mask).testBit k
        let g'' :=
          if k < 6 then bitSet size g' k 8 dark
          else if k < 8 then bitSet size g' (k + 1) 8 dark
          else bitSet size g' (size - 15 + k) 8 dark
        if k < 8 then bitSet size g'' 8 (size - 1 - k) dark
        else if k < 9 then bitSet size g'' 8 (15 - k - 1 + 1) dark
        else bitSet size g'' 8 (15 - k - 1) dark) g') i 6 = bitGet size g i 6) := by
    intro g0 h0
    refine foldl_preserve _ (fun g' =>
      bitGet size g' 6 i = bitGet size g 6 i ∧ bitGet size g' i 6 = bitGet size g i 6) _
      ?_ g0 h0
    intro g' k hk hP
    rw [List.mem_range] at hk
    dsimp only
    constructor
    · split_ifs <;>
        rw [bitGet_bitSet_ne _ (by omega), bitGet_bitSet_ne _ (by omega)] <;> exact hP.1
    · split_ifs <;>
        rw [bitGet_bitSet_ne _ (by omega), bitGet_bitSet_ne _ (by omega)] <;> exact hP.2
  have hfold := hmain g ⟨rfl, rfl⟩
  constructor
  · rw [bitGet_bitSet_ne _ (show size - 8 ≠ 6 ∨ (8 : ℕ) ≠ i from Or.inl (by omega))]
    exact hfold.1
  · rw [bitGet_bitSet_ne _ (show size - 8 ≠ i ∨ (8 : ℕ) ≠ 6 from Or.inr (by omega))]
    exact hfold.2

/-- `writeVersionInfo` never writes the timing cells `(6, i)` and `(i, 6)`
for `8 ≤ i ≤ size - 9`. -/
theorem writeVersionInfo_timing {size : ℕ} (g version : ℕ) {i : ℕ} (hs : 21 ≤ size)
    (h8 : 8 ≤ i) (h9 : i ≤ size - 9) :
    bitGet size (writeVersionInfo size g version) 6 i = bitGet size g 6 i ∧
    bitGet size (writeVersionInfo size g version) i 6 = bitGet size g i 6 := by
  unfold writeVersionInfo
  simp only [foldlNat_eq_foldl]
  refine foldl_preserve _ (fun g' =>
    bitGet size g' 6 i = bitGet size g 6 i ∧ bitGet size g' i 6 = bitGet size g i 6) _
    ?_ g ⟨rfl, rfl⟩
  intro g' k hk hP
  rw [List.mem_range] at hk
  constructor
  · rw [bitGet_bitSet_ne _ (by omega), bitGet_bitSet_ne _ (by omega)]
    exact hP.1
  · rw [bitGet_bitSet_ne _ (by omega), bitGet_bitSet_ne _ (by omega)]
    exact hP.2

/-- One trial composition (mask, format info, version info) on a matrix
whose timing cells are reserved and alternating keeps them alternating. -/
theorem trialGrid_timing {size : ℕ} (m : Matrix) (ecIdx version mask i : ℕ)
    (hs : 21 ≤ size) (h8 : 8 ≤ i) (h9 : i ≤ size - 9)
    (hA : bitGet size m.res 6 i = true ∧ bitGet size m.mod 6 i = decide (i % 2 = 0))
    (hB : bitGet size m.res i 6 = true ∧ bitGet size m.mod i 6 = decide (i % 2 = 0)) :
    bitGet size (trialGrid size m ecIdx version mask) 6 i = decide (i % 2 = 0) ∧
    bitGet size (trialGrid size m ecIdx version mask) i 6 = decide (i % 2 = 0) := by
  unfold trialGrid
  dsimp only
  have hm1 : bitGet size (applyMask size m.mod m.res mask) 6 i = decide (i % 2 = 0) := by
    rw [applyMask_preserve hA.1]
    exact hA.2
  have hm2 : bitGet size (applyMask size m.mod m.res mask) i 6 = decide (i % 2 = 0) := by
    rw [applyMask_preserve hB.1]
    exact hB.2
  have hw := writeFormatInfo_timing (applyMask size m.mod m.res mask) ecIdx mask hs h8 h9
  split
  · have hv := writeVersionInfo_timing
      (writeFormatInfo size (applyMask size m.mod m.res mask) ecIdx mask) version hs h8 h9
    rw [hv.1, hv.2, hw.1, hw.2]
    exact ⟨hm1, hm2⟩
  · rw [hw.1, hw.2]
    exact ⟨hm1, hm2⟩

/-- The full output grid of `generateQR` keeps the timing alternation. -/
theorem finalGrid_timing (bytes : List ℕ) (e : ECLevel) (v i : ℕ)
    (hv1 : 1 ≤ v) (hv40 : v ≤ 40) (h8 : 8 ≤ i) (h9 : i ≤ v * 4 + 17 - 9) :
    bitGet (v * 4 + 17) (finalGrid bytes e v) 6 i = decide (i % 2 = 0) ∧
    bitGet (v * 4 + 17) (finalGrid bytes e v) i 6 = decide (i % 2 = 0) := by
  have hpos : ∀ p ∈ ALIGN_POS.getD (v - 1) [], p % 2 = 0 ∧ (p = 6 ∨ 18 ≤ p) :=
    alignPos_facts (v - 1) (by omega)
  have hbm := buildMatrix_timing v i hv1 h8 h9 hpos
  have hs : 21 ≤ v * 4 + 17 := by omega
  have hpdA := placeData_preserve (codewordStream bytes v e) hbm.1
  have hpdB := placeData_preserve (codewordStream bytes v e) hbm.2
  unfold finalGrid
  dsimp only
  rw [show (buildMatrix v).2 = v * 4 + 17 from rfl]
  exact trialGrid_timing _ _ _ _ _ hs h8 h9 hpdA hpdB

/-- Reading back a packed grid through the `boolean[][]` shape. -/
theorem decodeGrid_getD {size g r c : ℕ} (hr : r < size) (hc : c < size) :
    ((decodeGrid size g).getD r []).getD c false = bitGet size g r c := by
  unfold decodeGrid
  simp only [List.getD_eq_getElem?_getD, List.getElem?_map, List.getElem?_range hr,
    List.getElem?_range hc, Option.map_some', Option.getD_some]

/-- C10: in every grid returned by `generateQR`, for every `i` with
`8 ≤ i ≤ size - 9`, the module at `(6, i)` and the module at `(i, 6)` is
dark exactly when `i` is even: mask, data placement, format and version
writers never alter the timing lines, and the alignment patterns agree
with the alternation because their centre coordinates are even. -/
theorem C10_timing (bytes : List ℕ) (e : ECLevel) (q : QRCode)
    (h : generateQR bytes e = some q) :
    ∀ i, 8 ≤ i → i ≤ q.size - 9 →
      ((q.modules.getD 6 []).getD i false = decide (i % 2 = 0) ∧
       (q.modules.getD i []).getD 6 false = decide (i % 2 = 0)) := by
  rcases generateQR_eq_some h with ⟨hne, v, h1, h2, h3, rfl⟩
  dsimp only
  intro i hi8 hi9
  rw [show (buildMatrix v).2 = v * 4 + 17 from rfl] at hi9 ⊢
  have hft := finalGrid_timing bytes e v i h2 h3 hi8 hi9
  constructor
  · rw [decodeGrid_getD (by omega) (by omega)]
    exact hft.1
  · rw [decodeGrid_getD (by omega) (by omega)]
    exact hft.2

/-- Witness for C10 at the one-byte payload `[49]` at level M. -/
theorem C10_timing_witness :
    ∃ q, generateQR [49] ECLevel.M = some q ∧
      ∀ i, 8 ≤ i → i ≤ q.size - 9 →
        ((q.modules.getD 6 []).getD i false = decide (i % 2 = 0) ∧
         (q.modules.getD i []).getD 6 false = decide (i % 2 = 0)) := by
  cases hq : generateQR [49] ECLevel.M with
  | none =>
    have hs : (generateQR [49] ECLevel.M).isSome = true := rfl
    rw [hq] at hs
    cases hs
  | some q => exact ⟨q, rfl, C10_timing [49] ECLevel.M q hq⟩

end QRSpec
